import Mathlib

/-!
# filerepo

A shallow embedding of `filerepo.go` (package `filerepo`): the `Repo` type with its
operations `New`, `Hash`, `Read`, `Save` and the private `scan`.

The repository talks to two collaborators that are not part of its source:

* the lexical path functions `filepath.Join`, `filepath.Clean`, `filepath.Ext`
  (Unix flavour, separator `/`), embedded below from their documented algorithm;
* the filesystem calls `os.Stat`, `os.MkdirAll`, `ioutil.ReadDir`, `ioutil.ReadFile`,
  `ioutil.WriteFile`, embedded as functions on an explicit filesystem value: a finite
  tree of directories and regular files (no symbolic links, no special files) together
  with a working directory.  Every call is recorded in a trace so that statements of
  the form "performs no file read" can be expressed.

The scan is embedded twice over the same loop body `scanFiles`: on the trees of regular
files and directories (`Repo.scan`, `New`), which the methods `Hash`, `Read` and `Save`
work on, and on disks that also hold symbolic links, special files and directories that
may not be listed (`OnDisk.scan`, `OnDisk.New`); the first is the second restricted to
disks without those (`New_toDisk`).

Byte strings are lists of naturals, `uint64` hash values are naturals (no arithmetic is
performed on them), Go strings are Lean strings.  The methods are first embedded as
functions that run from call to return without interruption; for concurrent calls the
body of `Hash` is cut at the boundaries its `sync.RWMutex` draws, and the pieces of
different calls interleave.
-/

namespace filerepo

/-! ## Basic data -/

/-- A byte string (`[]byte`). -/
abbrev Bytes := List Nat

/-- The error values the filesystem calls can return. -/
inductive Errno where
  | ENOENT
  | ENOTDIR
  | EISDIR
  | EACCES
  deriving DecidableEq, Repr

/-! ## Go maps and directory tables as association lists -/

/-- Lookup of a key: `value, ok := m[k]`. -/
def mapGet {α : Type} : List (String × α) → String → Option α
  | [], _ => none
  | (k, v) :: rest, key => if k = key then some v else mapGet rest key

/-- Assignment `m[k] = v`: overwrite the entry of `k` in place, or add one. -/
def mapSet {α : Type} : List (String × α) → String → α → List (String × α)
  | [], key, val => [(key, val)]
  | (k, v) :: rest, key, val =>
    if k = key then (k, val) :: rest else (k, v) :: mapSet rest key val

/-- The keys of a map, in storage order. -/
def mapKeys {α : Type} (m : List (String × α)) : List String :=
  m.map Prod.fst

/-! ## Lexical path functions (`path/filepath`, Unix) -/

/-- Split a character sequence at every `/`; the pieces may be empty. -/
def splitSlash : List Char → List (List Char)
  | [] => [[]]
  | c :: cs =>
    if c = '/' then [] :: splitSlash cs
    else
      match splitSlash cs with
      | [] => [[c]]
      | h :: t => (c :: h) :: t

/-- The `/`-separated elements of a path. -/
def pathElems (p : String) : List String :=
  (splitSlash p.data).map String.mk

/-- Whether a path starts with the separator. -/
def isRooted (p : String) : Bool :=
  match p.data with
  | c :: _ => c = '/'
  | [] => false

/-- One step of `Clean`: the output elements `out` (most recent first) after reading
the element `e`.  Empty and `.` elements are dropped; `..` removes the previous real
element, is dropped at the root of a rooted path and is kept otherwise. -/
def cleanStep (rooted : Bool) (out : List String) (e : String) : List String :=
  if e = "" ∨ e = "." then out
  else if e = ".." then
    match out with
    | [] => if rooted then [] else [".."]
    | top :: below => if top = ".." then ".." :: top :: below else below
  else e :: out

/-- The cleaned elements of a path, first element first. -/
def cleanElems (rooted : Bool) (es : List String) : List String :=
  (es.foldl (cleanStep rooted) []).reverse

/-- Path elements written one after the other with `/` in between. -/
def joinSlash : List String → String
  | [] => ""
  | [a] => a
  | a :: b :: rest => a ++ "/" ++ joinSlash (b :: rest)

/-- The function `filepath.Clean`. -/
def Clean (p : String) : String :=
  if p = "" then "."
  else
    let out := cleanElems (isRooted p) (pathElems p)
    if isRooted p then "/" ++ joinSlash out
    else if out = [] then "." else joinSlash out

/-- The function `filepath.Join` for two elements: empty elements are ignored, the
others are joined by `/` and the result is cleaned; all empty gives the empty string. -/
def Join (a b : String) : String :=
  if a ≠ "" then Clean (a ++ "/" ++ b)
  else if b ≠ "" then Clean b
  else ""

/-- The loop of `filepath.Ext`, run over the reversed name: walk back from the end
until a `.` (the extension starts there) or a `/` (no extension). -/
def extFrom : List Char → List Char → List Char
  | [], _ => []
  | c :: cs, acc =>
    if c = '/' then []
    else if c = '.' then '.' :: acc
    else extFrom cs (c :: acc)

/-- The function `filepath.Ext`: the suffix of the last element starting at its final
dot, or the empty string when there is no dot. -/
def Ext (p : String) : String :=
  String.mk (extFrom p.data.reverse [])

/-! ## The filesystem -/

/-- A filesystem object: a regular file with its content and the read and write
permission of the process, or a directory with its table of named entries.  Symbolic
links, special files and directories that may not be listed are entries of the disks
of `Entry` further down. -/
inductive Node where
  | file (data : Bytes) (readable writable : Bool)
  | dir (entries : List (String × Node))

/-- A filesystem: the tree below `/` and the working directory of the process (the
names from `/` down to it). -/
structure FS where
  root : Node
  cwd : List String

/-- One step of path resolution: the absolute position after following element `e`. -/
def resolveStep (pos : List String) (e : String) : List String :=
  if e = "" ∨ e = "." then pos
  else if e = ".." then pos.dropLast
  else pos ++ [e]

/-- The absolute position (names from `/` down) a path denotes: rooted paths start at
`/`, the others at the working directory; `..` steps to the parent, which in a tree
without symbolic links is the position without its last name.  The empty path denotes
nothing. -/
def FS.resolve (fs : FS) (p : String) : Option (List String) :=
  if p = "" then none
  else some ((pathElems p).foldl resolveStep (if isRooted p then [] else fs.cwd))

/-- The object at a position below a node. -/
def Node.walk : Node → List String → Except Errno Node
  | n, [] => .ok n
  | .dir es, c :: cs =>
    match mapGet es c with
    | some child => Node.walk child cs
    | none => .error .ENOENT
  | .file _ _ _, _ :: _ => .error .ENOTDIR

/-- The object a path denotes. -/
def FS.lookup (fs : FS) (p : String) : Except Errno Node :=
  match fs.resolve p with
  | none => .error .ENOENT
  | some pos => fs.root.walk pos

/-- Create or truncate-and-write the regular file at a position below a node.  A new
file is readable and writable; an existing one keeps its permissions and must be
writable.  The parent directory must exist. -/
def Node.put : Node → List String → Bytes → Except Errno Node
  | .file _ _ _, _, _ => .error .ENOTDIR
  | .dir _, [], _ => .error .EISDIR
  | .dir es, [c], data =>
    match mapGet es c with
    | none => .ok (.dir (mapSet es c (.file data true true)))
    | some (.file _ r w) =>
      if w then .ok (.dir (mapSet es c (.file data r w))) else .error .EACCES
    | some (.dir _) => .error .EISDIR
  | .dir es, c :: c2 :: cs, data =>
    match mapGet es c with
    | none => .error .ENOENT
    | some child =>
      match Node.put child (c2 :: cs) data with
      | .ok child2 => .ok (.dir (mapSet es c child2))
      | .error e => .error e

/-- Create the directory at a position below a node together with every missing
ancestor; existing directories on the way are kept. -/
def Node.mkdirs : Node → List String → Except Errno Node
  | .file _ _ _, _ => .error .ENOTDIR
  | .dir es, [] => .ok (.dir es)
  | .dir es, c :: cs =>
    match mapGet es c with
    | some child =>
      match Node.mkdirs child cs with
      | .ok child2 => .ok (.dir (mapSet es c child2))
      | .error e => .error e
    | none =>
      match Node.mkdirs (.dir []) cs with
      | .ok child2 => .ok (.dir (mapSet es c child2))
      | .error e => .error e

/-- A name a directory entry can have: not empty, not `.` or `..`, without `/`. -/
def validName (n : String) : Bool :=
  n ≠ "" && n ≠ "." && n ≠ ".." && !(n.data.contains '/')

/-- Well-formed trees: in every directory the entry names are valid and distinct. -/
def Node.wf : Node → Bool
  | .file _ _ _ => true
  | .dir es => decide (mapKeys es).Nodup && wfs es
where
  /-- Well-formedness of the entries of a directory. -/
  wfs : List (String × Node) → Bool
  | [] => true
  | (n, c) :: rest => validName n && Node.wf c && wfs rest

/-- The number of nested directory levels of a tree (`0` for a file). -/
def Node.height : Node → Nat
  | .file _ _ _ => 0
  | .dir es => heights es + 1
where
  /-- The largest height among the entries of a directory. -/
  heights : List (String × Node) → Nat
  | [] => 0
  | (_, c) :: rest => max (Node.height c) (heights rest)

/-- The information `os.FileInfo` carries that the repository looks at. -/
structure FileInfo where
  Name : String
  IsDir : Bool
  deriving DecidableEq, Repr

/-- Whether a node is a directory. -/
def Node.isDir : Node → Bool
  | .dir _ => true
  | .file _ _ _ => false

/-- The `FileInfo` of a directory entry. -/
def toInfo (e : String × Node) : FileInfo :=
  { Name := e.1, IsDir := e.2.isDir }

/-- The result of `ioutil.ReadFile` on a filesystem. -/
def FS.readFile (fs : FS) (p : String) : Except Errno Bytes :=
  match fs.lookup p with
  | .ok (.file data r _) => if r then .ok data else .error .EACCES
  | .ok (.dir _) => .error .EISDIR
  | .error e => .error e

/-- The result of `ioutil.WriteFile` on a filesystem: the filesystem afterwards. -/
def FS.writeFile (fs : FS) (p : String) (data : Bytes) : Except Errno FS :=
  match fs.resolve p with
  | none => .error .ENOENT
  | some pos =>
    match fs.root.put pos data with
    | .ok root2 => .ok { fs with root := root2 }
    | .error e => .error e

/-- The result of `ioutil.ReadDir` on a filesystem: one `FileInfo` per entry. -/
def FS.readDir (fs : FS) (p : String) : Except Errno (List FileInfo) :=
  match fs.lookup p with
  | .ok (.dir es) => .ok (es.map toInfo)
  | .ok (.file _ _ _) => .error .ENOTDIR
  | .error e => .error e

/-- The result of `os.Stat` on a filesystem. -/
def FS.stat (fs : FS) (p : String) : Except Errno Bool :=
  match fs.lookup p with
  | .ok n => .ok n.isDir
  | .error e => .error e

/-- The result of `os.MkdirAll` on a filesystem: the filesystem afterwards. -/
def FS.mkdirAll (fs : FS) (p : String) : Except Errno FS :=
  match fs.resolve p with
  | none => .error .ENOENT
  | some pos =>
    match fs.root.mkdirs pos with
    | .ok root2 => .ok { fs with root := root2 }
    | .error e => .error e

/-- The predicate `os.IsNotExist`. -/
def IsNotExist : Errno → Bool
  | .ENOENT => true
  | _ => false

/-! ## The world: filesystem plus trace of calls -/

/-- A call made to the filesystem. -/
inductive Call where
  | Stat (path : String)
  | MkdirAll (path : String)
  | ReadDir (path : String)
  | ReadFile (path : String)
  | WriteFile (path : String) (data : Bytes)
  deriving DecidableEq, Repr

/-- The state outside the repository: the filesystem and the calls made so far, oldest
first. -/
structure World where
  fs : FS
  calls : List Call

/-- The call `ioutil.ReadFile(p)`. -/
def World.ReadFile (w : World) (p : String) : Except Errno Bytes × World :=
  (w.fs.readFile p, { w with calls := w.calls ++ [Call.ReadFile p] })

/-- The call `ioutil.WriteFile(p, data, os.ModePerm)`; a failed write changes nothing. -/
def World.WriteFile (w : World) (p : String) (data : Bytes) : Option Errno × World :=
  match w.fs.writeFile p data with
  | .ok fs2 => (none, { fs := fs2, calls := w.calls ++ [Call.WriteFile p data] })
  | .error e => (some e, { w with calls := w.calls ++ [Call.WriteFile p data] })

/-- The call `ioutil.ReadDir(p)`. -/
def World.ReadDir (w : World) (p : String) : Except Errno (List FileInfo) × World :=
  (w.fs.readDir p, { w with calls := w.calls ++ [Call.ReadDir p] })

/-- The call `os.Stat(p)`. -/
def World.Stat (w : World) (p : String) : Except Errno Bool × World :=
  (w.fs.stat p, { w with calls := w.calls ++ [Call.Stat p] })

/-- The call `os.MkdirAll(p, os.ModePerm)`; a failed call changes nothing. -/
def World.MkdirAll (w : World) (p : String) : Option Errno × World :=
  match w.fs.mkdirAll p with
  | .ok fs2 => (none, { fs := fs2, calls := w.calls ++ [Call.MkdirAll p] })
  | .error e => (some e, { w with calls := w.calls ++ [Call.MkdirAll p] })

/-- The file reads among a list of calls. -/
def fileReads (cs : List Call) : List String :=
  cs.filterMap (fun c => match c with
    | Call.ReadFile p => some p
    | _ => none)

/-! ## The repository -/

/-- The type `Repo`: the root directory, the hash function and the index from path to
cached hash (`0`: not computed yet). -/
structure Repo where
  location : String
  hashFunc : Bytes → Nat
  hashValue : List (String × Nat)

/-- What a method call leaves behind: the returned value, the repository and the world
after the call. -/
structure Step (α : Type) where
  ret : α
  repo : Repo
  world : World

/-- The method `Repo.Hash`. -/
def Repo.Hash (r : Repo) (w : World) (path : String) : Step Nat :=
  match mapGet r.hashValue path with
  | none => ⟨0, r, w⟩
  | some value =>
    if value ≠ 0 then ⟨value, r, w⟩
    else
      match w.ReadFile (Join r.location path) with
      | (.error _, w1) => ⟨0, r, w1⟩
      | (.ok data, w1) =>
        ⟨r.hashFunc data,
          { r with hashValue := mapSet r.hashValue path (r.hashFunc data) }, w1⟩

/-- The method `Repo.Read`. -/
def Repo.Read (r : Repo) (w : World) (filename : String) : Step (Except Errno Bytes) :=
  match w.ReadFile (Join r.location filename) with
  | (res, w1) => ⟨res, r, w1⟩

/-- The method `Repo.Save`; the returned `none` is the `nil` error. -/
def Repo.Save (r : Repo) (w : World) (path : String) (data : Bytes) :
    Step (Option Errno) :=
  match w.WriteFile (Join r.location path) data with
  | (some err, w1) => ⟨some err, r, w1⟩
  | (none, w1) =>
    ⟨none, { r with hashValue := mapSet r.hashValue path (r.hashFunc data) }, w1⟩

/-- Why a run of `New` did not return a repository: one of its two kinds of panic, or
the recursion budget of the embedding ran out (which no run of the program does). -/
inductive Fault where
  | noHashFunc
  | os (e : Errno)
  | fuel
  deriving DecidableEq, Repr

/-- The extension test of `scan`: no test for a nil `extensions`, otherwise the inner
loop that looks for an element equal to `filepath.Ext` of the file name. -/
def extMatched (extensions : Option (List String)) (fileName : String) : Bool :=
  match extensions with
  | none => true
  | some exts => exts.any (fun e => e = Ext fileName)

/-- The body of the loop `for _, file := range files` of `scan`; `self` is the
recursive call `r.scan(name, recursive, extensions)`. -/
def scanFiles {σ : Type} (self : Repo → σ → String → Except Fault (Repo × σ))
    (dir : String) (recursive : Bool) (extensions : Option (List String)) :
    List FileInfo → Repo → σ → Except Fault (Repo × σ)
  | [], r, w => .ok (r, w)
  | file :: rest, r, w =>
    let name := if dir ≠ "" then dir ++ "/" ++ file.Name else file.Name
    if file.IsDir then
      if recursive then
        match self r w name with
        | .ok (r1, w1) => scanFiles self dir recursive extensions rest r1 w1
        | .error f => .error f
      else scanFiles self dir recursive extensions rest r w
    else if extMatched extensions file.Name then
      scanFiles self dir recursive extensions rest
        { r with hashValue := mapSet r.hashValue name 0 } w
    else scanFiles self dir recursive extensions rest r w

/-- The method `Repo.scan`.  The first argument bounds the depth of the recursion;
`extensions` is `none` for a nil slice. -/
def Repo.scan : Nat → Repo → World → String → Bool → Option (List String) →
    Except Fault (Repo × World)
  | 0, _, _, _, _, _ => .error .fuel
  | fuel + 1, r, w, dir, recursive, extensions =>
    match w.ReadDir (Join r.location dir) with
    | (.error err, _) => .error (.os err)
    | (.ok files, w1) =>
      scanFiles (fun r2 w2 name => Repo.scan fuel r2 w2 name recursive extensions)
        dir recursive extensions files r w1

/-- The function `New`; `hashFunc` is `none` for a nil function.  The first argument
bounds the depth of the recursion of `scan`. -/
def New (fuel : Nat) (w : World) (location : String) (recursive : Bool)
    (extensions : Option (List String)) (hashFunc : Option (Bytes → Nat)) :
    Except Fault (Repo × World) :=
  match hashFunc with
  | none => .error .noHashFunc
  | some h =>
    let r : Repo := { location := location, hashFunc := h, hashValue := [] }
    match w.Stat location with
    | (.error err, w1) =>
      if IsNotExist err then
        match w1.MkdirAll location with
        | (some err2, _) => .error (.os err2)
        | (none, w2) => Repo.scan fuel r w2 "" recursive extensions
      else Repo.scan fuel r w1 "" recursive extensions
    | (.ok _, w1) => Repo.scan fuel r w1 "" recursive extensions

/-! ## The scan on a disk with every kind of entry

The scan looks at a directory through `ioutil.ReadDir`, which reports each entry as
`Lstat` sees it: a symbolic link, a FIFO, a socket or a device is an entry that is not
a directory, and a directory may refuse to be listed.  The trees of `Node` above contain
neither; the trees of `Entry` below do.  A path that leads through a symbolic link is
not resolved here (the walk stops with an error): what a link points to plays no part
in the scan of the directories around it. -/

/-- A directory entry as `Lstat` reports it: a regular file, a directory with its table
of entries and whether the process may list it, a symbolic link with the path it
stores, or a special file (FIFO, socket, device). -/
inductive Entry where
  | regular (data : Bytes) (readable writable : Bool)
  | directory (entries : List (String × Entry)) (listable : Bool)
  | symlink (target : String)
  | special

/-- The method `IsDir` of the `FileInfo` of an entry. -/
def Entry.isDir : Entry → Bool
  | .directory _ _ => true
  | _ => false

/-- Whether an entry is a regular file. -/
def Entry.isRegular : Entry → Bool
  | .regular _ _ _ => true
  | _ => false

/-- The `FileInfo` of a directory entry. -/
def Entry.info (e : String × Entry) : FileInfo :=
  { Name := e.1, IsDir := e.2.isDir }

/-- The object at a position below an entry, reached through directories. -/
def Entry.walk : Entry → List String → Except Errno Entry
  | n, [] => .ok n
  | .directory es _, c :: cs =>
    match mapGet es c with
    | some child => Entry.walk child cs
    | none => .error .ENOENT
  | _, _ :: _ => .error .ENOTDIR

/-- Create the directory at a position below an entry together with every missing
ancestor; new directories can be listed. -/
def Entry.mkdirs : Entry → List String → Except Errno Entry
  | .directory es l, [] => .ok (.directory es l)
  | .directory es l, c :: cs =>
    match mapGet es c with
    | some child =>
      match Entry.mkdirs child cs with
      | .ok child2 => .ok (.directory (mapSet es c child2) l)
      | .error e => .error e
    | none =>
      match Entry.mkdirs (.directory [] true) cs with
      | .ok child2 => .ok (.directory (mapSet es c child2) l)
      | .error e => .error e
  | _, _ => .error .ENOTDIR

/-- A disk: the tree below `/` and the working directory of the process. -/
structure Disk where
  root : Entry
  cwd : List String

/-- The absolute position a path denotes on a disk, as `FS.resolve`. -/
def Disk.resolve (d : Disk) (p : String) : Option (List String) :=
  if p = "" then none
  else some ((pathElems p).foldl resolveStep (if isRooted p then [] else d.cwd))

/-- The object a path denotes on a disk. -/
def Disk.lookup (d : Disk) (p : String) : Except Errno Entry :=
  match d.resolve p with
  | none => .error .ENOENT
  | some pos => d.root.walk pos

/-- The result of `ioutil.ReadDir` on a disk: one `FileInfo` per entry of a directory
that may be listed. -/
def Disk.readDir (d : Disk) (p : String) : Except Errno (List FileInfo) :=
  match d.lookup p with
  | .ok (.directory es l) => if l then .ok (es.map Entry.info) else .error .EACCES
  | .ok _ => .error .ENOTDIR
  | .error e => .error e

/-- The result of `os.Stat` on a disk. -/
def Disk.stat (d : Disk) (p : String) : Except Errno Bool :=
  match d.lookup p with
  | .ok n => .ok n.isDir
  | .error e => .error e

/-- The result of `os.MkdirAll` on a disk: the disk afterwards. -/
def Disk.mkdirAll (d : Disk) (p : String) : Except Errno Disk :=
  match d.resolve p with
  | none => .error .ENOENT
  | some pos =>
    match d.root.mkdirs pos with
    | .ok root2 => .ok { d with root := root2 }
    | .error e => .error e

/-- The state outside the repository: the disk and the calls made so far. -/
structure DiskWorld where
  disk : Disk
  calls : List Call

/-- The call `ioutil.ReadDir(p)` on a disk. -/
def DiskWorld.ReadDir (w : DiskWorld) (p : String) :
    Except Errno (List FileInfo) × DiskWorld :=
  (w.disk.readDir p, { w with calls := w.calls ++ [Call.ReadDir p] })

/-- The call `os.Stat(p)` on a disk. -/
def DiskWorld.Stat (w : DiskWorld) (p : String) : Except Errno Bool × DiskWorld :=
  (w.disk.stat p, { w with calls := w.calls ++ [Call.Stat p] })

/-- The call `os.MkdirAll(p, os.ModePerm)` on a disk; a failed call changes nothing. -/
def DiskWorld.MkdirAll (w : DiskWorld) (p : String) : Option Errno × DiskWorld :=
  match w.disk.mkdirAll p with
  | .ok d2 => (none, { disk := d2, calls := w.calls ++ [Call.MkdirAll p] })
  | .error e => (some e, { w with calls := w.calls ++ [Call.MkdirAll p] })

namespace OnDisk

/-- The method `Repo.scan`, run on a disk.  The first argument bounds the depth of the
recursion; `extensions` is `none` for a nil slice. -/
def scan : Nat → Repo → DiskWorld → String → Bool → Option (List String) →
    Except Fault (Repo × DiskWorld)
  | 0, _, _, _, _, _ => .error .fuel
  | fuel + 1, r, w, dir, recursive, extensions =>
    match w.ReadDir (Join r.location dir) with
    | (.error err, _) => .error (.os err)
    | (.ok files, w1) =>
      scanFiles (fun r2 w2 name => scan fuel r2 w2 name recursive extensions)
        dir recursive extensions files r w1

/-- The function `New`, run on a disk; `hashFunc` is `none` for a nil function. -/
def New (fuel : Nat) (w : DiskWorld) (location : String) (recursive : Bool)
    (extensions : Option (List String)) (hashFunc : Option (Bytes → Nat)) :
    Except Fault (Repo × DiskWorld) :=
  match hashFunc with
  | none => .error .noHashFunc
  | some h =>
    let r : Repo := { location := location, hashFunc := h, hashValue := [] }
    match w.Stat location with
    | (.error err, w1) =>
      if IsNotExist err then
        match w1.MkdirAll location with
        | (some err2, _) => .error (.os err2)
        | (none, w2) => scan fuel r w2 "" recursive extensions
      else scan fuel r w1 "" recursive extensions
    | (.ok _, w1) => scan fuel r w1 "" recursive extensions

end OnDisk

/-- Well-formed trees of entries: in every directory the entry names are valid and
distinct. -/
def Entry.wf : Entry → Bool
  | .directory es _ => decide (mapKeys es).Nodup && wfs es
  | _ => true
where
  /-- Well-formedness of the entries of a directory. -/
  wfs : List (String × Entry) → Bool
  | [] => true
  | (n, c) :: rest => validName n && Entry.wf c && wfs rest

/-- The number of nested directory levels of a tree of entries. -/
def Entry.height : Entry → Nat
  | .directory es _ => heights es + 1
  | _ => 0
where
  /-- The largest height among the entries of a directory. -/
  heights : List (String × Entry) → Nat
  | [] => 0
  | (_, c) :: rest => max (Entry.height c) (heights rest)

/-- Every directory of a tree of entries may be listed. -/
def Entry.listable : Entry → Bool
  | .directory es l => l && alls es
  | _ => true
where
  /-- Every directory below the entries of a directory may be listed. -/
  alls : List (String × Entry) → Bool
  | [] => true
  | (_, c) :: rest => Entry.listable c && alls rest

/-- The tree of entries a tree of nodes stands for: regular files and directories that
may be listed. -/
def Node.toEntry : Node → Entry
  | .file data r w => .regular data r w
  | .dir es => .directory (toEntries es) true
where
  /-- The entries a table of nodes stands for. -/
  toEntries : List (String × Node) → List (String × Entry)
  | [] => []
  | (n, c) :: rest => (n, Node.toEntry c) :: toEntries rest

/-- The disk a filesystem of nodes stands for. -/
def FS.toDisk (fs : FS) : Disk :=
  { root := fs.root.toEntry, cwd := fs.cwd }

/-- The world on a disk a world of nodes stands for. -/
def World.toDisk (w : World) : DiskWorld :=
  { disk := w.fs.toDisk, calls := w.calls }

/-! ## Sequences of calls -/

/-- A call of one of the three methods of a repository. -/
inductive Op where
  | Hash (path : String)
  | Read (filename : String)
  | Save (path : String) (data : Bytes)

/-- The repository and the world after one call. -/
def Repo.step (r : Repo) (w : World) : Op → Repo × World
  | .Hash path => ((r.Hash w path).repo, (r.Hash w path).world)
  | .Read filename => ((r.Read w filename).repo, (r.Read w filename).world)
  | .Save path data => ((r.Save w path data).repo, (r.Save w path data).world)

/-- The repository and the world after a sequence of calls, made one after the other
with nothing else touching the filesystem. -/
def run : List Op → Repo → World → Repo × World
  | [], r, w => (r, w)
  | op :: rest, r, w => run rest (r.step w op).1 (r.step w op).2

/-! ## Concurrent calls of `Hash`

The body of `Hash` cut at its lock boundaries: the lookup under `RLock`, the file read
outside any lock, the assignment under `Lock`.  Each piece is one atomic step; calls
running at the same time interleave their steps in any order. -/

/-- Where a running call of `Hash` stands. -/
inductive HashPC where
  | start
  | read
  | store (value : Nat)
  | done (ret : Nat)
  deriving DecidableEq, Repr

/-- One atomic step of a call `Hash(path)`: from `start` the lookup under `RLock` and
the two early returns; from `read` the call of `ReadFile` and of the hash function;
from `store` the assignment under `Lock` and the return. -/
def hashStep (path : String) (r : Repo) (w : World) : HashPC → HashPC × Repo × World
  | .start =>
    match mapGet r.hashValue path with
    | none => (.done 0, r, w)
    | some value => if value ≠ 0 then (.done value, r, w) else (.read, r, w)
  | .read =>
    match w.ReadFile (Join r.location path) with
    | (.error _, w1) => (.done 0, r, w1)
    | (.ok data, w1) => (.store (r.hashFunc data), r, w1)
  | .store value =>
    (.done value, { r with hashValue := mapSet r.hashValue path value }, w)
  | .done ret => (.done ret, r, w)

/-- The calls of `Hash(path)` in flight, the repository and the world they share. -/
structure Conc where
  pcs : List HashPC
  repo : Repo
  world : World

/-- The scheduler lets call number `i` make its next step (nothing happens when there
is no such call). -/
def Conc.step (path : String) (s : Conc) (i : Nat) : Conc :=
  match s.pcs[i]? with
  | none => s
  | some pc =>
    match hashStep path s.repo s.world pc with
    | (pc2, r2, w2) => { pcs := s.pcs.set i pc2, repo := r2, world := w2 }

/-- The state after a schedule: the list of the calls that step, in order. -/
def Conc.run (path : String) (s : Conc) (sched : List Nat) : Conc :=
  sched.foldl (Conc.step path) s

/-- The number of steps a call still has to make at most. -/
def HashPC.remaining : HashPC → Nat
  | .start => 3
  | .read => 2
  | .store _ => 1
  | .done _ => 0

/-- Whether a call has returned. -/
def HashPC.isDone : HashPC → Bool
  | .done _ => true
  | _ => false

/-! ## Auxiliary notions for the proofs -/

/-- The index of the repository a run of `New` returned, if it returned one. -/
def indexOf {σ : Type} (x : Except Fault (Repo × σ)) : Option (List (String × Nat)) :=
  match x with
  | .ok (r, _) => some r.hashValue
  | .error _ => none

/-- The shape of the output of `Clean` while it runs (most recent element first): real
names on top of `..` elements, the latter only in a path that is not rooted. -/
def stackOK (rooted : Bool) : List String → Prop
  | [] => True
  | top :: below =>
    if top = ".." then rooted = false ∧ ∀ x ∈ below, x = ".."
    else (top ≠ "" ∧ top ≠ ".") ∧ stackOK rooted below

/-- The keys the scan of a directory registers: `k` names a file below the directory
`sub`, which lies at `dirs` below the root of the repository, along a path that starts
with one of `heads`; below the first level only if `recursive`; with an extension that
passes the test. -/
def ScanKey (recursive : Bool) (extensions : Option (List String)) (dirs : List String)
    (sub : List (String × Node)) (heads : List String) (k : String) : Prop :=
  ∃ first tail name, first ∈ heads ∧ (first :: tail).getLast? = some name ∧
    k = joinSlash (dirs ++ first :: tail) ∧ (recursive = false → tail = []) ∧
    (∃ d rd wr, Node.walk (.dir sub) (first :: tail) = .ok (.file d rd wr)) ∧
    extMatched extensions name = true

/-- What a scan does to the repository: it keeps location and hash function, adds
exactly the keys `added`, and keeps an all-zero index all-zero. -/
def ScanResult (added : String → Prop) (r r2 : Repo) : Prop :=
  r2.location = r.location ∧ r2.hashFunc = r.hashFunc ∧
  (∀ k, k ∈ mapKeys r2.hashValue ↔ k ∈ mapKeys r.hashValue ∨ added k) ∧
  ((∀ k v, mapGet r.hashValue k = some v → v = 0) →
    ∀ k v, mapGet r2.hashValue k = some v → v = 0)

/-- The cache is coherent: every key with a nonzero cached value addresses a file
whose content has that hash. -/
def Coherent (r : Repo) (w : World) : Prop :=
  ∀ k v, mapGet r.hashValue k = some v → v ≠ 0 →
    ∃ d rd wr, w.fs.lookup (Join r.location k) = .ok (Node.file d rd wr) ∧ v = r.hashFunc d

/-- A call does not write through an alias: a `Save(p, data)` is made only when no other
key with a nonzero cached value addresses the file that `p` addresses. -/
def Op.aliasFree (r : Repo) (w : World) : Op → Prop
  | .Save p _ => ∀ k v, k ≠ p → mapGet r.hashValue k = some v → v ≠ 0 →
      w.fs.resolve (Join r.location k) ≠ w.fs.resolve (Join r.location p)
  | _ => True

/-- No call of a sequence writes through an alias, each call judged in the state it is
made in. -/
def aliasFreeRun : List Op → Repo → World → Prop
  | [], _, _ => True
  | op :: rest, r, w => op.aliasFree r w ∧ aliasFreeRun rest (r.step w op).1 (r.step w op).2

/-- What holds while calls of `Hash(p)` run concurrently on a repository that started
as `r0` on the filesystem `fs0`, where `h` is the hash of the content of the file:
nothing but the entry of `p` moves, that entry is `0` or `h`, every call is about to
look up, to read, to store `h`, or has returned `h`, and once a call has returned the
entry is `h`. -/
def ConcInv (r0 : Repo) (fs0 : FS) (p : String) (h : Nat) (s : Conc) : Prop :=
  s.repo.location = r0.location ∧ s.repo.hashFunc = r0.hashFunc ∧ s.world.fs = fs0 ∧
  (mapGet s.repo.hashValue p = some 0 ∨ mapGet s.repo.hashValue p = some h) ∧
  (∀ pc ∈ s.pcs, pc = .start ∨ pc = .read ∨ pc = .store h ∨ pc = .done h) ∧
  ((∃ pc ∈ s.pcs, pc.isDone = true) → mapGet s.repo.hashValue p = some h)

/-- The number of steps call number `i` still has to make at most (`0` when there is
no such call). -/
def Conc.remaining (s : Conc) (i : Nat) : Nat :=
  match s.pcs[i]? with
  | some pc => pc.remaining
  | none => 0

/-- The outcome on a disk that an outcome on a filesystem of nodes stands for. -/
def onDisk (x : Except Fault (Repo × World)) : Except Fault (Repo × DiskWorld) :=
  match x with
  | .ok (r, w) => .ok (r, w.toDisk)
  | .error f => .error f

/-- The keys the scan of a directory of a disk registers: `k` names an entry that is
not a directory, below the directory `sub`, which lies at `dirs` below the root of the
repository, along a path of directories that starts with one of `heads`; below the first
level only if `recursive`; with an extension that passes the test. -/
def DiskKey (recursive : Bool) (extensions : Option (List String)) (dirs : List String)
    (sub : List (String × Entry)) (l : Bool) (heads : List String) (k : String) : Prop :=
  ∃ first tail name, first ∈ heads ∧ (first :: tail).getLast? = some name ∧
    k = joinSlash (dirs ++ first :: tail) ∧ (recursive = false → tail = []) ∧
    (∃ e, Entry.walk (.directory sub l) (first :: tail) = .ok e ∧ e.isDir = false) ∧
    extMatched extensions name = true

/-! ## A small concrete world -/

/-- A hash function used in the examples: the sum of the bytes (so the empty content
hashes to `0`). -/
def sumHash (data : Bytes) : Nat := data.sum

/-- The directory of the scan example: `a.txt`, `b.json`, `c.txt` and the subdirectory
`sub` with `d.txt`. -/
def exEntries : List (String × Node) :=
  [("a.txt", .file [1] true true), ("b.json", .file [2] true true),
    ("c.txt", .file [3] true true), ("sub", .dir [("d.txt", .file [4] true true)])]

/-- The example filesystem: the example directory at `/root`. -/
def exFS : FS :=
  { root := .dir [("root", .dir exEntries)], cwd := [] }

/-- The example filesystem before any call. -/
def exWorld : World := { fs := exFS, calls := [] }

/-- A repository on `/root` that knows `a.txt` (hash not computed), `c.txt` (hash
cached) and `gone.txt` (not on disk). -/
def exRepo : Repo :=
  { location := "/root", hashFunc := sumHash,
    hashValue := [("a.txt", 0), ("c.txt", 3), ("gone.txt", 0)] }

/-- The example filesystem after `[9]` was written to `/root/a.txt`. -/
def exFS3 : FS :=
  { root := .dir [("root", .dir [("a.txt", .file [9] true true),
      ("b.json", .file [2] true true), ("c.txt", .file [3] true true),
      ("sub", .dir [("d.txt", .file [4] true true)])])],
    cwd := [] }

/-- The example filesystem with `gone.txt` present. -/
def exFS2 : FS :=
  { root := .dir [("root", .dir [("a.txt", .file [1] true true),
      ("gone.txt", .file [7, 8] true true)])],
    cwd := [] }

/-- The repository `New` returns on the example directory, scanned recursively without
filter. -/
def exScanned : Repo :=
  { location := "/root", hashFunc := sumHash,
    hashValue := [("a.txt", 0), ("b.json", 0), ("c.txt", 0), ("sub/d.txt", 0)] }

/-- The world after that scan. -/
def exScannedWorld : World :=
  { fs := exFS,
    calls := [Call.Stat "/root", Call.ReadDir "/root", Call.ReadDir "/root/sub"] }

/-- A directory `/root` whose only file `s.txt` may be written but not read. -/
def exLockedFS : FS :=
  { root := .dir [("root", .dir [("s.txt", .file [7] false true)])], cwd := [] }

/-- The repository `New` returns on the directory with the unreadable file. -/
def exLocked : Repo :=
  { location := "/root", hashFunc := sumHash, hashValue := [("s.txt", 0)] }

/-- The world after the scan of the directory with the unreadable file. -/
def exLockedWorld : World :=
  { fs := exLockedFS, calls := [Call.Stat "/root", Call.ReadDir "/root"] }

/-- The example repository after the empty content was saved to `a.txt`: the entry of
`a.txt` is `0` and so is the hash of its file. -/
def exZeroRepo : Repo := (exRepo.Save exWorld "a.txt" []).repo

/-- The world after that save. -/
def exZeroWorld : World := (exRepo.Save exWorld "a.txt" []).world

/-- The example directory as a tree of entries: regular files only. -/
def exDiskEntries : List (String × Entry) :=
  [("a.txt", .regular [1] true true), ("b.json", .regular [2] true true),
    ("c.txt", .regular [3] true true),
    ("sub", .directory [("d.txt", .regular [4] true true)] true)]

/-- The example disk: the example directory at `/root`. -/
def exDisk : DiskWorld :=
  { disk := { root := .directory [("root", .directory exDiskEntries true)] true, cwd := [] },
    calls := [] }

/-- A directory with entries of every kind: the regular `a.txt`, the symbolic link
`ld.txt` to the directory `sub`, the dangling symbolic link `gone.txt`, the FIFO
`pipe.txt`, and the directory `sub` with the regular `d.txt`. -/
def exMixedEntries : List (String × Entry) :=
  [("a.txt", .regular [1] true true), ("ld.txt", .symlink "sub"),
    ("gone.txt", .symlink "nowhere"), ("pipe.txt", .special),
    ("sub", .directory [("d.txt", .regular [4] true true)] true)]

/-- The disk with the mixed directory at `/root`. -/
def exMixedDisk : DiskWorld :=
  { disk := { root := .directory [("root", .directory exMixedEntries true)] true, cwd := [] },
    calls := [] }

/-- A directory that holds `a.txt` and the directory `sub`, which the process may not
list. -/
def exClosedEntries : List (String × Entry) :=
  [("a.txt", .regular [1] true true),
    ("sub", .directory [("d.txt", .regular [4] true true)] false)]

/-- The disk with that directory at `/root`. -/
def exClosedDisk : DiskWorld :=
  { disk := { root := .directory [("root", .directory exClosedEntries true)] true, cwd := [] },
    calls := [] }

/-! ## Maps -/

theorem mapGet_mapSet_self {α : Type} (m : List (String × α)) (k : String) (v : α) :
    mapGet (mapSet m k v) k = some v := by
  induction m with
  | nil => simp [mapSet, mapGet]
  | cons e rest ih =>
    obtain ⟨k1, v1⟩ := e
    by_cases h : k1 = k
    · simp [mapSet, mapGet, h]
    · simp [mapSet, mapGet, h, ih]

theorem mapGet_mapSet_ne {α : Type} (m : List (String × α)) (k k2 : String) (v : α)
    (hne : k2 ≠ k) : mapGet (mapSet m k v) k2 = mapGet m k2 := by
  induction m with
  | nil => simp [mapSet, mapGet, hne.symm]
  | cons e rest ih =>
    obtain ⟨k1, v1⟩ := e
    by_cases h : k1 = k
    · subst h
      simp [mapSet, mapGet, hne.symm]
    · by_cases h2 : k1 = k2
      · subst h2
        simp [mapSet, mapGet, h]
      · simp [mapSet, mapGet, h, h2, ih]

theorem mapSet_mapSet_self {α : Type} (m : List (String × α)) (k : String) (v v2 : α) :
    mapSet (mapSet m k v) k v2 = mapSet m k v2 := by
  induction m with
  | nil => simp [mapSet]
  | cons e rest ih =>
    obtain ⟨k1, v1⟩ := e
    by_cases h : k1 = k
    · simp [mapSet, h]
    · simp [mapSet, h, ih]

theorem mapSet_of_mapGet {α : Type} (m : List (String × α)) (k : String) (v : α)
    (h : mapGet m k = some v) : mapSet m k v = m := by
  induction m with
  | nil => simp [mapGet] at h
  | cons e rest ih =>
    obtain ⟨k1, v1⟩ := e
    by_cases hk : k1 = k
    · simp [mapGet, hk] at h
      simp [mapSet, hk, h]
    · simp [mapGet, hk] at h
      simp [mapSet, hk, ih h]

theorem mem_mapKeys_iff {α : Type} (m : List (String × α)) (k : String) :
    k ∈ mapKeys m ↔ (mapGet m k).isSome = true := by
  induction m with
  | nil => simp [mapKeys, mapGet]
  | cons e rest ih =>
    obtain ⟨k1, v1⟩ := e
    by_cases hk : k1 = k
    · simp [mapKeys, mapGet, hk]
    · have hk2 : ¬ k = k1 := fun h => hk h.symm
      simp only [mapKeys] at ih
      simp [mapKeys, mapGet, hk, hk2, ih]

theorem mapKeys_mapSet_of_mem {α : Type} (m : List (String × α)) (k : String) (v : α)
    (h : k ∈ mapKeys m) : mapKeys (mapSet m k v) = mapKeys m := by
  induction m with
  | nil => simp [mapKeys] at h
  | cons e rest ih =>
    obtain ⟨k1, v1⟩ := e
    by_cases hk : k1 = k
    · simp [mapKeys, mapSet, hk]
    · have hk2 : ¬ k = k1 := fun h => hk h.symm
      simp only [mapKeys] at ih
      simp only [mapKeys, List.map_cons, List.mem_cons, hk2, false_or] at h
      simp [mapKeys, mapSet, hk, ih h]

theorem mapKeys_mapSet_of_not_mem {α : Type} (m : List (String × α)) (k : String) (v : α)
    (h : k ∉ mapKeys m) : mapKeys (mapSet m k v) = mapKeys m ++ [k] := by
  induction m with
  | nil => simp [mapKeys, mapSet]
  | cons e rest ih =>
    obtain ⟨k1, v1⟩ := e
    simp only [mapKeys, List.map_cons, List.mem_cons, not_or] at h
    have hk : ¬ k1 = k := fun h2 => h.1 h2.symm
    simp only [mapKeys] at ih
    simp [mapKeys, mapSet, hk, ih h.2]

/-! ## Write, then look up -/

theorem Node.walk_put (n : Node) (pos : List String) (data : Bytes) (n2 : Node)
    (h : Node.put n pos data = .ok n2) :
    ∃ rd wr, Node.walk n2 pos = .ok (Node.file data rd wr) := by
  induction pos generalizing n n2 with
  | nil =>
    cases n <;> simp [Node.put] at h
  | cons c cs ih =>
    cases n with
    | file d r w => simp [Node.put] at h
    | dir es =>
      cases cs with
      | nil =>
        simp only [Node.put] at h
        split at h
        · injection h with h
          subst h
          exact ⟨true, true, by simp [Node.walk, mapGet_mapSet_self]⟩
        · rename_i d0 r0 w0 _
          split at h
          · injection h with h
            subst h
            exact ⟨r0, w0, by simp [Node.walk, mapGet_mapSet_self]⟩
          · cases h
        · cases h
      | cons c2 cs2 =>
        simp only [Node.put] at h
        split at h
        · cases h
        · rename_i child hchild
          split at h
          · rename_i child2 hput
            injection h with h
            subst h
            obtain ⟨rd, wr, hw⟩ := ih child child2 hput
            exact ⟨rd, wr, by simp [Node.walk, mapGet_mapSet_self, hw]⟩
          · cases h

theorem FS.lookup_writeFile (fs fs2 : FS) (p : String) (data : Bytes)
    (h : fs.writeFile p data = .ok fs2) :
    ∃ rd wr, fs2.lookup p = .ok (Node.file data rd wr) := by
  unfold FS.writeFile at h
  split at h
  · cases h
  · rename_i pos hpos
    split at h
    · rename_i root2 hput
      injection h with h
      subst h
      obtain ⟨rd, wr, hw⟩ := Node.walk_put _ _ _ _ hput
      refine ⟨rd, wr, ?_⟩
      have hres : FS.resolve { fs with root := root2 } p = some pos := by
        simpa [FS.resolve] using hpos
      simp [FS.lookup, hres, hw]
    · cases h

theorem FS.readFile_writeFile (fs fs2 : FS) (p : String) (data c : Bytes)
    (h : fs.writeFile p data = .ok fs2) (hr : fs2.readFile p = .ok c) : c = data := by
  obtain ⟨rd, wr, hl⟩ := FS.lookup_writeFile fs fs2 p data h
  simp only [FS.readFile, hl] at hr
  split at hr
  · injection hr with hr
    exact hr.symm
  · cases hr

/-! ## Hash and Save -/

/-- C1. After a successful `Save(p, data)`, with nothing happening in between, the next
`Hash(p)` returns `hashFunc(data)`, also when that value is `0`. -/
theorem Save_then_Hash_value (r : Repo) (w : World) (p : String) (data : Bytes)
    (hok : (r.Save w p data).ret = none) :
    ((r.Save w p data).repo.Hash (r.Save w p data).world p).ret = r.hashFunc data := by
  unfold Repo.Save World.WriteFile at hok ⊢
  cases hw : w.fs.writeFile (Join r.location p) data with
  | error e => simp [hw] at hok
  | ok fs2 =>
    simp only [hw]
    unfold Repo.Hash
    simp only [mapGet_mapSet_self]
    by_cases hz : r.hashFunc data = 0
    · simp only [hz, ne_eq, not_true_eq_false, if_false, World.ReadFile]
      cases hr : fs2.readFile (Join r.location p) with
      | error e => rfl
      | ok c =>
        have hc : c = data := FS.readFile_writeFile w.fs fs2 _ data c hw hr
        simp [hc, hz]
    · simp [hz]

/-- Witness of C1: saving the empty content (hash `0`) under `a.txt`. -/
theorem Save_then_Hash_value_witness :
    (exRepo.Save exWorld "a.txt" []).ret = none ∧
    ((exRepo.Save exWorld "a.txt" []).repo.Hash
      (exRepo.Save exWorld "a.txt" []).world "a.txt").ret = exRepo.hashFunc [] :=
  ⟨by decide, Save_then_Hash_value exRepo exWorld "a.txt" [] (by decide)⟩

/-- C2, as stated, fails: after saving content whose hash is `0` the next `Hash` reads
the file, and on another filesystem it returns another value. -/
theorem Save_then_Hash_reads_counterexample :
    (exRepo.Save exWorld "gone.txt" []).ret = none ∧
    fileReads ((exRepo.Save exWorld "gone.txt" []).repo.Hash
      (exRepo.Save exWorld "gone.txt" []).world "gone.txt").world.calls
      = ["/root/gone.txt"] ∧
    ((exRepo.Save exWorld "gone.txt" []).repo.Hash
      (exRepo.Save exWorld "gone.txt" []).world "gone.txt").ret = 0 ∧
    ((exRepo.Save exWorld "gone.txt" []).repo.Hash
      { fs := exFS2, calls := [] } "gone.txt").ret = 15 := by
  decide

/-- C2, amended. After a successful `Save(p, data)` with `hashFunc(data) ≠ 0`, the next
`Hash(p)`, on whatever filesystem, returns `hashFunc(data)` and changes neither the
repository nor the world: no call is made.  With `hashFunc(data) = 0` the next `Hash(p)`
makes exactly one call, the read of the file. -/
theorem Save_then_Hash_from_cache (r : Repo) (w : World) (p : String) (data : Bytes)
    (hok : (r.Save w p data).ret = none) :
    (r.hashFunc data ≠ 0 → ∀ w2 : World,
      (r.Save w p data).repo.Hash w2 p = ⟨r.hashFunc data, (r.Save w p data).repo, w2⟩) ∧
    (r.hashFunc data = 0 → ∀ w2 : World,
      ((r.Save w p data).repo.Hash w2 p).world.calls
        = w2.calls ++ [Call.ReadFile (Join r.location p)]) := by
  unfold Repo.Save World.WriteFile at hok ⊢
  cases hw : w.fs.writeFile (Join r.location p) data with
  | error e => simp [hw] at hok
  | ok fs2 =>
    simp only [hw]
    refine ⟨fun hnz w2 => ?_, fun hz w2 => ?_⟩
    · unfold Repo.Hash
      simp [mapGet_mapSet_self, hnz]
    · unfold Repo.Hash
      simp only [mapGet_mapSet_self, hz, ne_eq, not_true_eq_false, if_false, World.ReadFile]
      cases w2.fs.readFile (Join r.location p) <;> rfl

/-- Witness of the amended C2: saving `[5]` under `a.txt`, then hashing on a different
filesystem. -/
theorem Save_then_Hash_from_cache_witness :
    (exRepo.Save exWorld "a.txt" [5]).ret = none ∧
    (exRepo.hashFunc [5] ≠ 0 → ∀ w2 : World,
      (exRepo.Save exWorld "a.txt" [5]).repo.Hash w2 "a.txt"
        = ⟨exRepo.hashFunc [5], (exRepo.Save exWorld "a.txt" [5]).repo, w2⟩) ∧
    (exRepo.hashFunc [5] = 0 → ∀ w2 : World,
      ((exRepo.Save exWorld "a.txt" [5]).repo.Hash w2 "a.txt").world.calls
        = w2.calls ++ [Call.ReadFile (Join exRepo.location "a.txt")]) :=
  ⟨by decide, Save_then_Hash_from_cache exRepo exWorld "a.txt" [5] (by decide)⟩

/-- C3. Two `Hash(p)` calls in a row return the same value, and the index after the
second call is the index after the first. -/
theorem Hash_twice_same (r : Repo) (w : World) (p : String) :
    ((r.Hash w p).repo.Hash (r.Hash w p).world p).ret = (r.Hash w p).ret ∧
    ((r.Hash w p).repo.Hash (r.Hash w p).world p).repo.hashValue
      = (r.Hash w p).repo.hashValue := by
  cases hg : mapGet r.hashValue p with
  | none => simp [Repo.Hash, hg]
  | some v =>
    by_cases hv : v = 0
    · subst hv
      cases hr : w.fs.readFile (Join r.location p) with
      | error e => simp [Repo.Hash, hg, World.ReadFile, hr]
      | ok c =>
        by_cases hz : r.hashFunc c = 0
        · simp [Repo.Hash, hg, World.ReadFile, hr, mapGet_mapSet_self, hz,
            mapSet_mapSet_self]
        · simp [Repo.Hash, hg, World.ReadFile, hr, mapGet_mapSet_self, hz]
    · simp [Repo.Hash, hg, hv]

/-- C4, as stated, fails: `a.txt` of the saved empty content hashes to `0`, and the
second `Hash` reads the file again; so does the second `Hash` of the missing
`gone.txt`. -/
theorem Hash_twice_reads_counterexample :
    fileReads ((exRepo.Hash exWorld "gone.txt").repo.Hash
      (exRepo.Hash exWorld "gone.txt").world "gone.txt").world.calls
      = ["/root/gone.txt", "/root/gone.txt"] ∧
    fileReads (((exRepo.Save exWorld "a.txt" []).repo.Hash
      (exRepo.Save exWorld "a.txt" []).world "a.txt").repo.Hash
      ((exRepo.Save exWorld "a.txt" []).repo.Hash
        (exRepo.Save exWorld "a.txt" []).world "a.txt").world "a.txt").world.calls
      = ["/root/a.txt", "/root/a.txt"] := by
  decide

/-- C4, amended. The second of two `Hash(p)` calls in a row makes no call to the
filesystem exactly when `p` is not a key or the first call returned a nonzero value;
when `p` is a key and the first call returned `0` the file is read again: the second
call then makes exactly one call, the read of the file. -/
theorem Hash_twice_second_reads_iff (r : Repo) (w : World) (p : String) :
    (((r.Hash w p).repo.Hash (r.Hash w p).world p).world.calls = (r.Hash w p).world.calls
      ↔ (mapGet r.hashValue p = none ∨ (r.Hash w p).ret ≠ 0)) ∧
    (((r.Hash w p).repo.Hash (r.Hash w p).world p).world.calls
        = (r.Hash w p).world.calls ++ [Call.ReadFile (Join r.location p)]
      ↔ ¬ (mapGet r.hashValue p = none ∨ (r.Hash w p).ret ≠ 0)) := by
  cases hg : mapGet r.hashValue p with
  | none => simp [Repo.Hash, hg]
  | some v =>
    by_cases hv : v = 0
    · subst hv
      cases hr : w.fs.readFile (Join r.location p) with
      | error e => simp [Repo.Hash, hg, World.ReadFile, hr]
      | ok c =>
        by_cases hz : r.hashFunc c = 0
        · simp [Repo.Hash, hg, World.ReadFile, hr, mapGet_mapSet_self, hz]
        · simp [Repo.Hash, hg, World.ReadFile, hr, mapGet_mapSet_self, hz]
    · simp [Repo.Hash, hg, hv]

/-- C6. For a path that is not a key, `Hash` returns `0`, makes no call to the
filesystem and leaves the repository as it was. -/
theorem Hash_unknown (r : Repo) (w : World) (p : String)
    (hp : mapGet r.hashValue p = none) : r.Hash w p = ⟨0, r, w⟩ := by
  simp [Repo.Hash, hp]

/-- Witness of C6: `b.json` is on disk but not in the index. -/
theorem Hash_unknown_witness :
    mapGet exRepo.hashValue "b.json" = none ∧
    exWorld.fs.readFile (Join exRepo.location "b.json") = .ok [2] ∧
    exRepo.Hash exWorld "b.json" = ⟨0, exRepo, exWorld⟩ :=
  ⟨by decide, rfl, Hash_unknown exRepo exWorld "b.json" (by decide)⟩

/-- C7. For a key with cached value `0` whose file cannot be read, `Hash` returns `0`
and leaves the repository unchanged; a later `Hash` on a filesystem where the file is
readable with content `c` returns `hashFunc(c)`. -/
theorem Hash_read_failure (r : Repo) (w : World) (p : String) (e : Errno)
    (hp : mapGet r.hashValue p = some 0)
    (hfail : w.fs.readFile (Join r.location p) = .error e) :
    (r.Hash w p).ret = 0 ∧ (r.Hash w p).repo = r ∧
    ∀ (w2 : World) (c : Bytes), w2.fs.readFile (Join r.location p) = .ok c →
      ((r.Hash w p).repo.Hash w2 p).ret = r.hashFunc c := by
  refine ⟨by simp [Repo.Hash, hp, World.ReadFile, hfail],
    by simp [Repo.Hash, hp, World.ReadFile, hfail], ?_⟩
  intro w2 c hc
  simp [Repo.Hash, hp, World.ReadFile, hfail, hc]

/-- Witness of C7: `gone.txt` is a key but not on disk. -/
theorem Hash_read_failure_witness :
    mapGet exRepo.hashValue "gone.txt" = some 0 ∧
    exWorld.fs.readFile (Join exRepo.location "gone.txt") = .error .ENOENT ∧
    (exRepo.Hash exWorld "gone.txt").ret = 0 ∧
    (exRepo.Hash exWorld "gone.txt").repo = exRepo ∧
    ∀ (w2 : World) (c : Bytes), w2.fs.readFile (Join exRepo.location "gone.txt") = .ok c →
      ((exRepo.Hash exWorld "gone.txt").repo.Hash w2 "gone.txt").ret = exRepo.hashFunc c :=
  ⟨by decide, rfl, Hash_read_failure exRepo exWorld "gone.txt" .ENOENT (by decide) rfl⟩

/-- C8. For a key with cached value `0` whose file is readable with content `c`, `Hash`
returns `hashFunc(c)` and the index afterwards maps the key to `hashFunc(c)`. -/
theorem Hash_lazy_fill (r : Repo) (w : World) (p : String) (c : Bytes)
    (hp : mapGet r.hashValue p = some 0)
    (hread : w.fs.readFile (Join r.location p) = .ok c) :
    (r.Hash w p).ret = r.hashFunc c ∧
    mapGet (r.Hash w p).repo.hashValue p = some (r.hashFunc c) := by
  simp [Repo.Hash, hp, World.ReadFile, hread, mapGet_mapSet_self]

/-- Witness of C8: the first `Hash` of `a.txt`. -/
theorem Hash_lazy_fill_witness :
    mapGet exRepo.hashValue "a.txt" = some 0 ∧
    exWorld.fs.readFile (Join exRepo.location "a.txt") = .ok [1] ∧
    (exRepo.Hash exWorld "a.txt").ret = exRepo.hashFunc [1] ∧
    mapGet (exRepo.Hash exWorld "a.txt").repo.hashValue "a.txt"
      = some (exRepo.hashFunc [1]) :=
  ⟨by decide, rfl, Hash_lazy_fill exRepo exWorld "a.txt" [1] (by decide) rfl⟩

/-- C9. When the write of the file fails, `Save` returns that error and leaves the
repository unchanged. -/
theorem Save_failure (r : Repo) (w : World) (p : String) (data : Bytes) (e : Errno)
    (hfail : w.fs.writeFile (Join r.location p) data = .error e) :
    (r.Save w p data).ret = some e ∧ (r.Save w p data).repo = r := by
  simp [Repo.Save, World.WriteFile, hfail]

/-- Witness of C9: the parent directory `nodir` does not exist. -/
theorem Save_failure_witness :
    exWorld.fs.writeFile (Join exRepo.location "nodir/x.txt") [9] = .error .ENOENT ∧
    (exRepo.Save exWorld "nodir/x.txt" [9]).ret = some .ENOENT ∧
    (exRepo.Save exWorld "nodir/x.txt" [9]).repo = exRepo :=
  ⟨rfl, Save_failure exRepo exWorld "nodir/x.txt" [9] .ENOENT rfl⟩

/-- C10. When the write of the file succeeds, `Save` returns no error, the file at
`root/p` holds exactly `data`, the index maps `p` to `hashFunc(data)` whatever it held
before, and the entry of every other key is unchanged. -/
theorem Save_success (r : Repo) (w : World) (p : String) (data : Bytes) (fs2 : FS)
    (hok : w.fs.writeFile (Join r.location p) data = .ok fs2) :
    (r.Save w p data).ret = none ∧
    (∃ rd wr, (r.Save w p data).world.fs.lookup (Join r.location p)
      = .ok (Node.file data rd wr)) ∧
    mapGet (r.Save w p data).repo.hashValue p = some (r.hashFunc data) ∧
    ∀ k, k ≠ p → mapGet (r.Save w p data).repo.hashValue k = mapGet r.hashValue k := by
  refine ⟨by simp [Repo.Save, World.WriteFile, hok], ?_,
    by simp [Repo.Save, World.WriteFile, hok, mapGet_mapSet_self], ?_⟩
  · have hfs : (r.Save w p data).world.fs = fs2 := by
      simp [Repo.Save, World.WriteFile, hok]
    rw [hfs]
    exact FS.lookup_writeFile w.fs fs2 _ data hok
  · intro k hk
    simp [Repo.Save, World.WriteFile, hok, mapGet_mapSet_ne _ _ _ _ hk]

/-- Witness of C10: overwriting `a.txt`, whose entry was `0`. -/
theorem Save_success_witness :
    exWorld.fs.writeFile (Join exRepo.location "a.txt") [9] = .ok exFS3 ∧
    (exRepo.Save exWorld "a.txt" [9]).ret = none ∧
    (∃ rd wr, (exRepo.Save exWorld "a.txt" [9]).world.fs.lookup
      (Join exRepo.location "a.txt") = .ok (Node.file [9] rd wr)) ∧
    mapGet (exRepo.Save exWorld "a.txt" [9]).repo.hashValue "a.txt"
      = some (exRepo.hashFunc [9]) ∧
    ∀ k, k ≠ "a.txt" →
      mapGet (exRepo.Save exWorld "a.txt" [9]).repo.hashValue k = mapGet exRepo.hashValue k :=
  ⟨rfl, Save_success exRepo exWorld "a.txt" [9] exFS3 rfl⟩

/-! ## Splitting and joining paths -/

theorem splitSlash_ne_nil (cs : List Char) : splitSlash cs ≠ [] := by
  cases cs with
  | nil => simp [splitSlash]
  | cons c cs =>
    simp only [splitSlash]
    split
    · simp
    · split <;> simp

theorem splitSlash_append (a b : List Char) :
    splitSlash (a ++ '/' :: b) = splitSlash a ++ splitSlash b := by
  induction a with
  | nil => simp [splitSlash]
  | cons c cs ih =>
    by_cases hc : c = '/'
    · simp [splitSlash, hc, ih]
    · simp only [List.cons_append, splitSlash, hc, if_false]
      have ih2 : splitSlash (cs.append ('/' :: b)) = splitSlash cs ++ splitSlash b := ih
      rw [ih2]
      cases hs : splitSlash cs with
      | nil => exact absurd hs (splitSlash_ne_nil cs)
      | cons h t => simp

theorem splitSlash_of_not_mem (cs : List Char) (h : '/' ∉ cs) : splitSlash cs = [cs] := by
  induction cs with
  | nil => simp [splitSlash]
  | cons c cs ih =>
    simp only [List.mem_cons, not_or] at h
    have hc : ¬ c = '/' := fun e => h.1 e.symm
    simp [splitSlash, hc, ih h.2]

theorem not_mem_of_mem_splitSlash (cs piece : List Char) (h : piece ∈ splitSlash cs) :
    '/' ∉ piece := by
  induction cs generalizing piece with
  | nil =>
    simp [splitSlash] at h
    simp [h]
  | cons c cs ih =>
    by_cases hc : c = '/'
    · simp only [splitSlash, hc, if_true, List.mem_cons] at h
      rcases h with h | h
      · simp [h]
      · exact ih piece h
    · simp only [splitSlash, hc, if_false] at h
      cases hs : splitSlash cs with
      | nil => exact absurd hs (splitSlash_ne_nil cs)
      | cons h1 t =>
        simp only [hs, List.mem_cons] at h
        rcases h with h | h
        · subst h
          have := ih h1 (by simp [hs])
          simp only [List.mem_cons, not_or]
          exact ⟨fun e => hc e.symm, this⟩
        · exact ih piece (by simp [hs, h])

theorem pathElems_append (a b : String) :
    pathElems (a ++ "/" ++ b) = pathElems a ++ pathElems b := by
  simp only [pathElems, String.data_append]
  rw [List.append_assoc, List.singleton_append, splitSlash_append, List.map_append]

theorem pathElems_of_not_mem (a : String) (h : '/' ∉ a.data) : pathElems a = [a] := by
  simp [pathElems, splitSlash_of_not_mem _ h]

theorem not_mem_of_mem_pathElems (p e : String) (h : e ∈ pathElems p) : '/' ∉ e.data := by
  simp only [pathElems, List.mem_map] at h
  obtain ⟨piece, hp, rfl⟩ := h
  exact not_mem_of_mem_splitSlash _ _ hp

theorem pathElems_joinSlash (names : List String) (hne : names ≠ [])
    (h : ∀ n ∈ names, '/' ∉ n.data) : pathElems (joinSlash names) = names := by
  induction names with
  | nil => exact absurd rfl hne
  | cons a rest ih =>
    cases rest with
    | nil => simpa [joinSlash] using pathElems_of_not_mem a (h a (by simp))
    | cons b rest2 =>
      simp only [joinSlash]
      rw [pathElems_append, pathElems_of_not_mem a (h a (by simp)),
        ih (by simp) (fun n hn => h n (by simp [hn]))]
      simp

theorem pathElems_empty : pathElems "" = [""] := by
  rfl

theorem isRooted_append (a b : String) (ha : a ≠ "") : isRooted (a ++ b) = isRooted a := by
  have hd : a.data ≠ [] := fun h => ha (String.ext h)
  simp only [isRooted, String.data_append]
  cases hh : a.data with
  | nil => exact absurd hh hd
  | cons c cs => simp

theorem joinSlash_append_singleton (names : List String) (n : String) (hne : names ≠ []) :
    joinSlash (names ++ [n]) = joinSlash names ++ "/" ++ n := by
  induction names with
  | nil => exact absurd rfl hne
  | cons a rest ih =>
    cases rest with
    | nil => simp [joinSlash]
    | cons b rest2 =>
      have := ih (by simp)
      simp only [List.cons_append] at this ⊢
      simp only [joinSlash, this, String.append_assoc]

theorem joinSlash_ne_empty (names : List String) (hne : names ≠ [])
    (h : ∀ n ∈ names, n ≠ "") : joinSlash names ≠ "" := by
  cases names with
  | nil => exact absurd rfl hne
  | cons a rest =>
    have ha : a.data ≠ [] := fun e => h a (by simp) (String.ext e)
    cases rest with
    | nil => simpa [joinSlash] using h a (by simp)
    | cons b rest2 =>
      intro e
      have := congrArg String.data e
      simp [joinSlash, String.data_append, ha] at this

/-! ## Cleaning a path does not change what it denotes -/

theorem validName_iff (n : String) :
    validName n = true ↔ n ≠ "" ∧ n ≠ "." ∧ n ≠ ".." ∧ '/' ∉ n.data := by
  simp [validName, and_assoc]

theorem resolveStep_valid (pos : List String) (n : String) (h : validName n = true) :
    resolveStep pos n = pos ++ [n] := by
  obtain ⟨h1, h2, h3, _⟩ := (validName_iff n).1 h
  simp [resolveStep, h1, h2, h3]

theorem foldl_resolveStep_valid (names pos : List String)
    (h : ∀ n ∈ names, validName n = true) : names.foldl resolveStep pos = pos ++ names := by
  induction names generalizing pos with
  | nil => simp
  | cons a rest ih =>
    simp only [List.foldl_cons]
    rw [resolveStep_valid pos a (h a (by simp)), ih _ (fun n hn => h n (by simp [hn]))]
    simp

theorem stackOK_ne_empty (rooted : Bool) (out : List String) (h : stackOK rooted out) :
    ∀ x ∈ out, x ≠ "" := by
  induction out with
  | nil => simp
  | cons top below ih =>
    intro x hx
    simp only [stackOK] at h
    by_cases ht : top = ".."
    · simp only [ht, if_true] at h
      simp only [List.mem_cons] at hx
      rcases hx with hx | hx
      · rw [hx, ht]; decide
      · rw [h.2 x hx]; decide
    · simp only [ht, if_false] at h
      simp only [List.mem_cons] at hx
      rcases hx with hx | hx
      · rw [hx]; exact h.1.1
      · exact ih h.2 x hx

theorem cleanStep_spec (rooted : Bool) (start : List String)
    (hstart : rooted = true → start = []) (out : List String) (e : String)
    (hinv : stackOK rooted out) :
    stackOK rooted (cleanStep rooted out e) ∧
    (cleanStep rooted out e).reverse.foldl resolveStep start
      = resolveStep (out.reverse.foldl resolveStep start) e := by
  by_cases h1 : e = "" ∨ e = "."
  · simp [cleanStep, resolveStep, h1, hinv]
  · by_cases h2 : e = ".."
    · subst h2
      cases out with
      | nil =>
        cases rooted with
        | true => simp [cleanStep, resolveStep, stackOK, hstart rfl]
        | false => simp [cleanStep, resolveStep, stackOK]
      | cons top below =>
        by_cases ht : top = ".."
        · subst ht
          simp only [stackOK, if_true] at hinv
          refine ⟨?_, ?_⟩
          · simp only [cleanStep, stackOK]
            simp only [h1, if_false, if_true]
            exact ⟨hinv.1, by simpa using hinv.2⟩
          · simp only [cleanStep]
            simp [h1, List.foldl_append]
        · simp only [stackOK, ht, if_false] at hinv
          refine ⟨?_, ?_⟩
          · simp only [cleanStep]
            simp only [h1, ht, if_false, if_true]
            exact hinv.2
          · simp only [cleanStep]
            simp only [h1, ht, if_false, if_true, List.reverse_cons, List.foldl_append,
              List.foldl_cons, List.foldl_nil]
            have htop : resolveStep (List.foldl resolveStep start below.reverse) top
                = List.foldl resolveStep start below.reverse ++ [top] := by
              simp [resolveStep, hinv.1.1, hinv.1.2, ht]
            rw [htop]
            simp [resolveStep]
    · push_neg at h1
      refine ⟨?_, ?_⟩
      · simp only [cleanStep]
        simp only [h1.1, h1.2, h2, or_self, if_false, stackOK]
        exact ⟨h1, hinv⟩
      · simp only [cleanStep]
        simp [h1.1, h1.2, h2, List.foldl_append]

theorem foldl_cleanStep_spec (rooted : Bool) (start : List String)
    (hstart : rooted = true → start = []) (es out : List String)
    (hinv : stackOK rooted out) :
    stackOK rooted (es.foldl (cleanStep rooted) out) ∧
    (es.foldl (cleanStep rooted) out).reverse.foldl resolveStep start
      = es.foldl resolveStep (out.reverse.foldl resolveStep start) := by
  induction es generalizing out with
  | nil => exact ⟨hinv, rfl⟩
  | cons e rest ih =>
    obtain ⟨h1, h2⟩ := cleanStep_spec rooted start hstart out e hinv
    obtain ⟨h3, h4⟩ := ih (cleanStep rooted out e) h1
    exact ⟨h3, by simp only [List.foldl_cons]; rw [h4, h2]⟩

theorem mem_cleanStep (rooted : Bool) (out : List String) (e x : String)
    (h : x ∈ cleanStep rooted out e) : x ∈ out ∨ x = e := by
  unfold cleanStep at h
  split at h
  · exact Or.inl h
  · split at h
    · rename_i he
      split at h
      · split at h
        · simp at h
        · simp only [List.mem_singleton] at h
          exact Or.inr (by rw [h, he])
      · split at h
        · simp only [List.mem_cons] at h
          rcases h with h | h | h
          · exact Or.inr (by rw [h, he])
          · exact Or.inl (by simp [h])
          · exact Or.inl (by simp [h])
        · exact Or.inl (by simp [h])
    · simp only [List.mem_cons] at h
      rcases h with h | h
      · exact Or.inr h
      · exact Or.inl h

theorem mem_foldl_cleanStep (rooted : Bool) (es out : List String) (x : String)
    (h : x ∈ es.foldl (cleanStep rooted) out) : x ∈ out ∨ x ∈ es := by
  induction es generalizing out with
  | nil => exact Or.inl h
  | cons e rest ih =>
    rcases ih _ h with h1 | h1
    · rcases mem_cleanStep rooted out e x h1 with h2 | h2
      · exact Or.inl h2
      · exact Or.inr (by simp [h2])
    · exact Or.inr (by simp [h1])

theorem cleanElems_spec (rooted : Bool) (start : List String)
    (hstart : rooted = true → start = []) (p : String) :
    (cleanElems rooted (pathElems p)).foldl resolveStep start
      = (pathElems p).foldl resolveStep start ∧
    (∀ x ∈ cleanElems rooted (pathElems p), x ≠ "" ∧ '/' ∉ x.data) := by
  obtain ⟨h1, h2⟩ := foldl_cleanStep_spec rooted start hstart (pathElems p) [] trivial
  refine ⟨by simpa [cleanElems] using h2, ?_⟩
  intro x hx
  simp only [cleanElems, List.mem_reverse] at hx
  refine ⟨stackOK_ne_empty rooted _ h1 x hx, ?_⟩
  rcases mem_foldl_cleanStep rooted _ _ x hx with h | h
  · simp at h
  · exact not_mem_of_mem_pathElems p x h

theorem isRooted_joinSlash (names : List String) (hne : names ≠ [])
    (h : ∀ x ∈ names, x ≠ "" ∧ '/' ∉ x.data) : isRooted (joinSlash names) = false := by
  cases names with
  | nil => exact absurd rfl hne
  | cons a rest =>
    obtain ⟨ha1, ha2⟩ := h a (by simp)
    have hd : a.data ≠ [] := fun e => ha1 (String.ext e)
    have key : isRooted a = false := by
      simp only [isRooted]
      cases hh : a.data with
      | nil => exact absurd hh hd
      | cons c cs =>
        rw [hh] at ha2
        simp only [List.mem_cons, not_or] at ha2
        simpa using fun e => ha2.1 e.symm
    cases rest with
    | nil => simpa [joinSlash] using key
    | cons b rest2 =>
      simp only [joinSlash, String.append_assoc]
      rw [isRooted_append a _ ha1]
      exact key

theorem FS.resolve_Clean (fs : FS) (p : String) (hp : p ≠ "") :
    fs.resolve (Clean p) = fs.resolve p := by
  cases hr : isRooted p with
  | true =>
    obtain ⟨h1, h2⟩ := cleanElems_spec true [] (fun _ => rfl) p
    have hC : Clean p = "" ++ "/" ++ joinSlash (cleanElems true (pathElems p)) := by
      simp [Clean, hp, hr]
    have hne : Clean p ≠ "" := by
      rw [hC]
      intro e
      have := congrArg String.data e
      simp [String.data_append] at this
    have hroot : isRooted (Clean p) = true := by
      rw [hC]
      rfl
    have helems : (pathElems (Clean p)).foldl resolveStep []
        = (cleanElems true (pathElems p)).foldl resolveStep [] := by
      rw [hC, pathElems_append, pathElems_empty]
      by_cases hout : cleanElems true (pathElems p) = []
      · rw [hout]
        rfl
      · rw [pathElems_joinSlash _ hout (fun n hn => (h2 n hn).2)]
        simp [resolveStep]
    simp only [FS.resolve, hne, hp, if_false, hroot, hr, if_true, helems, h1]
  | false =>
    obtain ⟨h1, h2⟩ := cleanElems_spec false fs.cwd (fun h => by cases h) p
    by_cases hout : cleanElems false (pathElems p) = []
    · have hC : Clean p = "." := by
        simp [Clean, hp, hr, hout]
      rw [hout] at h1
      simp only [List.foldl_nil] at h1
      have hdot : fs.resolve "." = some fs.cwd := by
        simp [FS.resolve, pathElems, splitSlash, isRooted, resolveStep]
      rw [hC, hdot]
      simp [FS.resolve, hp, hr, ← h1]
    · have hC : Clean p = joinSlash (cleanElems false (pathElems p)) := by
        simp [Clean, hp, hr, hout]
      have hne : Clean p ≠ "" := by
        rw [hC]
        exact joinSlash_ne_empty _ hout (fun n hn => (h2 n hn).1)
      have hroot : isRooted (Clean p) = false := by
        rw [hC]
        exact isRooted_joinSlash _ hout h2
      have helems : pathElems (Clean p) = cleanElems false (pathElems p) := by
        rw [hC]
        exact pathElems_joinSlash _ hout (fun n hn => (h2 n hn).2)
      simp [FS.resolve, hne, hp, hroot, hr, helems, h1]

theorem FS.resolve_Join (fs : FS) (loc : String) (pos0 : List String)
    (hloc : fs.resolve loc = some pos0) (names : List String)
    (hnames : ∀ n ∈ names, validName n = true) :
    fs.resolve (Join loc (joinSlash names)) = some (pos0 ++ names) := by
  have hne : loc ≠ "" := by
    intro e
    simp [FS.resolve, e] at hloc
  have hne2 : loc ++ "/" ++ joinSlash names ≠ "" := by
    intro e
    have := congrArg String.data e
    simp [String.data_append] at this
  have hpos : (pathElems loc).foldl resolveStep (if isRooted loc then [] else fs.cwd)
      = pos0 := by
    simpa [FS.resolve, hne] using hloc
  have hJ : Join loc (joinSlash names) = Clean (loc ++ "/" ++ joinSlash names) := by
    simp [Join, hne]
  have hroot : isRooted (loc ++ "/" ++ joinSlash names) = isRooted loc := by
    rw [String.append_assoc]
    exact isRooted_append loc _ hne
  rw [hJ, FS.resolve_Clean fs _ hne2]
  simp only [FS.resolve, hne2, if_false, hroot]
  rw [pathElems_append, List.foldl_append, hpos]
  by_cases hn : names = []
  · subst hn
    simp [joinSlash, pathElems_empty, resolveStep]
  · rw [pathElems_joinSlash names hn
      (fun n h => ((validName_iff n).1 (hnames n h)).2.2.2),
      foldl_resolveStep_valid names pos0 hnames]

/-! ## Trees -/

theorem Node.walk_append (n m : Node) (a b : List String) (h : Node.walk n a = .ok m) :
    Node.walk n (a ++ b) = Node.walk m b := by
  induction a generalizing n with
  | nil =>
    simp only [Node.walk] at h
    injection h with h
    simp [h]
  | cons c cs ih =>
    cases n with
    | file d rd wr => simp [Node.walk] at h
    | dir es =>
      simp only [Node.walk, List.cons_append] at h ⊢
      cases hg : mapGet es c with
      | none => simp [hg] at h
      | some child =>
        simp only [hg] at h ⊢
        exact ih child h

theorem Node.wfs_iff (es : List (String × Node)) :
    Node.wf.wfs es = true ↔ ∀ e ∈ es, validName e.1 = true ∧ e.2.wf = true := by
  induction es with
  | nil => simp [Node.wf.wfs]
  | cons e rest ih =>
    obtain ⟨n, c⟩ := e
    simp [Node.wf.wfs, ih, and_assoc]

theorem Node.wf_dir (es : List (String × Node)) (h : (Node.dir es).wf = true) :
    (mapKeys es).Nodup ∧ ∀ e ∈ es, validName e.1 = true ∧ e.2.wf = true := by
  simp only [Node.wf, Bool.and_eq_true, decide_eq_true_eq] at h
  exact ⟨h.1, (Node.wfs_iff es).1 h.2⟩

theorem Node.height_le_heights (es : List (String × Node)) :
    ∀ e ∈ es, e.2.height ≤ Node.height.heights es := by
  induction es with
  | nil => simp
  | cons e rest ih =>
    obtain ⟨n, c⟩ := e
    intro e2 he2
    simp only [List.mem_cons] at he2
    simp only [Node.height.heights]
    rcases he2 with he2 | he2
    · subst he2
      exact le_max_left _ _
    · exact le_trans (ih e2 he2) (le_max_right _ _)

theorem mem_of_mapGet {α : Type} (m : List (String × α)) (k : String) (v : α)
    (h : mapGet m k = some v) : (k, v) ∈ m := by
  induction m with
  | nil => simp [mapGet] at h
  | cons e rest ih =>
    obtain ⟨k1, v1⟩ := e
    by_cases hk : k1 = k
    · simp only [mapGet, hk, if_true, Option.some.injEq] at h
      simp [hk, h]
    · simp only [mapGet, hk, if_false] at h
      simp [ih h]

theorem mapGet_of_mem {α : Type} (m : List (String × α)) (k : String) (v : α)
    (hnd : (mapKeys m).Nodup) (h : (k, v) ∈ m) : mapGet m k = some v := by
  induction m with
  | nil => simp at h
  | cons e rest ih =>
    obtain ⟨k1, v1⟩ := e
    simp only [mapKeys, List.map_cons, List.nodup_cons, List.mem_map, not_exists,
      not_and] at hnd
    simp only [List.mem_cons, Prod.mk.injEq] at h
    rcases h with h | h
    · simp [mapGet, h.1, h.2]
    · have hk : ¬ k1 = k := by
        intro e
        exact hnd.1 (k, v) h e.symm
      simp only [mapGet, hk, if_false]
      exact ih hnd.2 h

theorem mem_mapKeys_mapSet {α : Type} (m : List (String × α)) (k k2 : String) (v : α) :
    k2 ∈ mapKeys (mapSet m k v) ↔ k2 ∈ mapKeys m ∨ k2 = k := by
  rw [mem_mapKeys_iff, mem_mapKeys_iff]
  by_cases h : k2 = k
  · subst h
    simp [mapGet_mapSet_self]
  · simp [mapGet_mapSet_ne _ _ _ _ h, h]

theorem Node.walk_valid (path : List String) (es : List (String × Node)) (m : Node)
    (hwf : (Node.dir es).wf = true) (h : Node.walk (.dir es) path = .ok m) :
    (∀ n ∈ path, validName n = true) ∧ m.wf = true := by
  induction path generalizing es with
  | nil =>
    simp only [Node.walk] at h
    injection h with h
    subst h
    exact ⟨by simp, hwf⟩
  | cons c cs ih =>
    simp only [Node.walk] at h
    cases hg : mapGet es c with
    | none => simp [hg] at h
    | some child =>
      simp only [hg] at h
      have hmem := mem_of_mapGet es c child hg
      obtain ⟨hv, hcw⟩ := (Node.wf_dir es hwf).2 _ hmem
      cases child with
      | file d rd wr =>
        cases cs with
        | nil =>
          simp only [Node.walk] at h
          injection h with h
          subst h
          exact ⟨by simpa using hv, hcw⟩
        | cons c2 cs2 => simp [Node.walk] at h
      | dir es2 =>
        obtain ⟨h1, h2⟩ := ih es2 hcw h
        refine ⟨?_, h2⟩
        intro n hn
        simp only [List.mem_cons] at hn
        rcases hn with hn | hn
        · rw [hn]; exact hv
        · exact h1 n hn

theorem joinSlash_injective (a b : List String) (ha : ∀ n ∈ a, validName n = true)
    (hb : ∀ n ∈ b, validName n = true) (h : joinSlash a = joinSlash b) : a = b := by
  have hs : ∀ (l : List String), (∀ n ∈ l, validName n = true) →
      (∀ n ∈ l, n ≠ "") ∧ (∀ n ∈ l, '/' ∉ n.data) := fun l hl =>
    ⟨fun n hn => ((validName_iff n).1 (hl n hn)).1,
      fun n hn => ((validName_iff n).1 (hl n hn)).2.2.2⟩
  by_cases hae : a = []
  · subst hae
    by_cases hbe : b = []
    · exact hbe.symm
    · exact absurd h.symm (joinSlash_ne_empty b hbe (hs b hb).1)
  · by_cases hbe : b = []
    · subst hbe
      exact absurd h (joinSlash_ne_empty a hae (hs a ha).1)
    · rw [← pathElems_joinSlash a hae (hs a ha).2, ← pathElems_joinSlash b hbe (hs b hb).2, h]

theorem scanName_eq (dirs : List String) (n : String)
    (hd : ∀ x ∈ dirs, validName x = true) :
    (if joinSlash dirs ≠ "" then joinSlash dirs ++ "/" ++ n else n)
      = joinSlash (dirs ++ [n]) := by
  by_cases he : dirs = []
  · subst he
    simp [joinSlash]
  · have hne : joinSlash dirs ≠ "" :=
      joinSlash_ne_empty dirs he (fun x hx => ((validName_iff x).1 (hd x hx)).1)
    rw [if_pos hne, joinSlash_append_singleton dirs n he]

/-! ## The scan -/

theorem ScanKey_nil (recursive : Bool) (extensions : Option (List String))
    (dirs : List String) (sub : List (String × Node)) (k : String) :
    ¬ ScanKey recursive extensions dirs sub [] k := by
  rintro ⟨first, tail, name, hf, _⟩
  simp at hf

theorem ScanKey_cons_file (recursive : Bool) (extensions : Option (List String))
    (dirs : List String) (sub : List (String × Node)) (heads : List String)
    (n : String) (d : Bytes) (rd wr : Bool) (k : String)
    (hget : mapGet sub n = some (Node.file d rd wr)) :
    ScanKey recursive extensions dirs sub (n :: heads) k ↔
      (k = joinSlash (dirs ++ [n]) ∧ extMatched extensions n = true) ∨
        ScanKey recursive extensions dirs sub heads k := by
  constructor
  · rintro ⟨first, tail, name, hf, hlast, hk, hrec, ⟨d2, rd2, wr2, hwalk⟩, hext⟩
    simp only [List.mem_cons] at hf
    rcases hf with hf | hf
    · subst hf
      simp only [Node.walk, hget] at hwalk
      cases tail with
      | nil =>
        simp only [List.getLast?_singleton, Option.some.injEq] at hlast
        subst hlast
        exact Or.inl ⟨hk, hext⟩
      | cons t ts => simp [Node.walk] at hwalk
    · exact Or.inr ⟨first, tail, name, hf, hlast, hk, hrec, ⟨d2, rd2, wr2, hwalk⟩, hext⟩
  · rintro (⟨hk, hext⟩ | ⟨first, tail, name, hf, hrest⟩)
    · exact ⟨n, [], n, by simp, by simp, hk, fun _ => rfl,
        ⟨d, rd, wr, by simp [Node.walk, hget]⟩, hext⟩
    · exact ⟨first, tail, name, by simp [hf], hrest⟩

theorem ScanKey_cons_dir_rec (extensions : Option (List String))
    (dirs : List String) (sub sub2 : List (String × Node)) (heads : List String)
    (n : String) (k : String) (hget : mapGet sub n = some (Node.dir sub2)) :
    ScanKey true extensions dirs sub (n :: heads) k ↔
      ScanKey true extensions (dirs ++ [n]) sub2 (mapKeys sub2) k ∨
        ScanKey true extensions dirs sub heads k := by
  constructor
  · rintro ⟨first, tail, name, hf, hlast, hk, hrec, ⟨d2, rd2, wr2, hwalk⟩, hext⟩
    simp only [List.mem_cons] at hf
    rcases hf with hf | hf
    · subst hf
      simp only [Node.walk, hget] at hwalk
      cases tail with
      | nil => simp [Node.walk] at hwalk
      | cons t ts =>
        left
        refine ⟨t, ts, name, ?_, ?_, ?_, (fun h => Bool.noConfusion h), ⟨d2, rd2, wr2, hwalk⟩, hext⟩
        · rw [mem_mapKeys_iff]
          simp only [Node.walk] at hwalk
          cases hg : mapGet sub2 t with
          | none => simp [hg] at hwalk
          | some c => rfl
        · simpa [List.getLast?_cons_cons] using hlast
        · simpa using hk
    · exact Or.inr ⟨first, tail, name, hf, hlast, hk, hrec, ⟨d2, rd2, wr2, hwalk⟩, hext⟩
  · rintro (⟨first, tail, name, hf, hlast, hk, hrec, ⟨d2, rd2, wr2, hwalk⟩, hext⟩ |
      ⟨first, tail, name, hf, hrest⟩)
    · refine ⟨n, first :: tail, name, by simp, ?_, ?_, (fun h => Bool.noConfusion h),
        ⟨d2, rd2, wr2, ?_⟩, hext⟩
      · simpa [List.getLast?_cons_cons] using hlast
      · simpa using hk
      · simpa [Node.walk, hget] using hwalk
    · exact ⟨first, tail, name, by simp [hf], hrest⟩

theorem ScanKey_cons_dir_flat (extensions : Option (List String))
    (dirs : List String) (sub sub2 : List (String × Node)) (heads : List String)
    (n : String) (k : String) (hget : mapGet sub n = some (Node.dir sub2)) :
    ScanKey false extensions dirs sub (n :: heads) k ↔
      ScanKey false extensions dirs sub heads k := by
  constructor
  · rintro ⟨first, tail, name, hf, hlast, hk, hrec, ⟨d2, rd2, wr2, hwalk⟩, hext⟩
    simp only [List.mem_cons] at hf
    rcases hf with hf | hf
    · subst hf
      rw [hrec rfl] at hwalk
      simp [Node.walk, hget] at hwalk
    · exact ⟨first, tail, name, hf, hlast, hk, hrec, ⟨d2, rd2, wr2, hwalk⟩, hext⟩
  · rintro ⟨first, tail, name, hf, hrest⟩
    exact ⟨first, tail, name, by simp [hf], hrest⟩

theorem ScanResult.same (added : String → Prop) (r : Repo) (h : ∀ k, ¬ added k) :
    ScanResult added r r := by
  refine ⟨rfl, rfl, fun k => ?_, fun hz => hz⟩
  simp [h k]

theorem ScanResult.chain (A B C : String → Prop) (r r1 r2 : Repo)
    (h1 : ScanResult A r r1) (h2 : ScanResult B r1 r2) (hC : ∀ k, C k ↔ A k ∨ B k) :
    ScanResult C r r2 := by
  obtain ⟨a1, a2, a3, a4⟩ := h1
  obtain ⟨b1, b2, b3, b4⟩ := h2
  refine ⟨b1.trans a1, b2.trans a2, fun k => ?_, fun hz => b4 (a4 hz)⟩
  rw [b3, a3, hC, or_assoc]

theorem ScanResult.register (r : Repo) (name : String) :
    ScanResult (fun k => k = name) r { r with hashValue := mapSet r.hashValue name 0 } := by
  refine ⟨rfl, rfl, fun k => mem_mapKeys_mapSet _ _ _ _, ?_⟩
  intro hz k v hk
  by_cases h : k = name
  · subst h
    rw [mapGet_mapSet_self] at hk
    injection hk with hk
    exact hk.symm
  · rw [mapGet_mapSet_ne _ _ _ _ h] at hk
    exact hz k v hk

theorem scanFiles_spec (fs : FS) (loc : String) (recursive : Bool)
    (extensions : Option (List String))
    (self : Repo → World → String → Except Fault (Repo × World))
    (dirs : List String) (sub : List (String × Node))
    (hdirs : ∀ x ∈ dirs, validName x = true) (hwf : (Node.dir sub).wf = true)
    (hself : ∀ n sub2 r w, (n, Node.dir sub2) ∈ sub → recursive = true →
      r.location = loc → w.fs = fs →
      ∃ r2 w2, self r w (joinSlash (dirs ++ [n])) = .ok (r2, w2) ∧ w2.fs = fs ∧
        ScanResult (ScanKey recursive extensions (dirs ++ [n]) sub2 (mapKeys sub2)) r r2)
    (l : List (String × Node)) (hl : ∀ e ∈ l, e ∈ sub) (r : Repo) (w : World)
    (hr : r.location = loc) (hw : w.fs = fs) :
    ∃ r2 w2, scanFiles self (joinSlash dirs) recursive extensions (l.map toInfo) r w
        = .ok (r2, w2) ∧ w2.fs = fs ∧
      ScanResult (ScanKey recursive extensions dirs sub (mapKeys l)) r r2 := by
  induction l generalizing r w with
  | nil =>
    exact ⟨r, w, rfl, hw, ScanResult.same _ r (fun k => ScanKey_nil _ _ _ _ k)⟩
  | cons e rest ih =>
    obtain ⟨n, c⟩ := e
    have hmem : (n, c) ∈ sub := hl _ (by simp)
    have hget : mapGet sub n = some c := mapGet_of_mem sub n c (Node.wf_dir sub hwf).1 hmem
    have hrest : ∀ e ∈ rest, e ∈ sub := fun e he => hl e (by simp [he])
    simp only [List.map_cons, scanFiles, toInfo, scanName_eq dirs n hdirs]
    cases c with
    | file d rd wr =>
      simp only [Node.isDir, Bool.false_eq_true, if_false]
      by_cases hm : extMatched extensions n = true
      · simp only [hm, if_true]
        obtain ⟨r2, w2, h1, h2, h3⟩ :=
          ih hrest { r with hashValue := mapSet r.hashValue (joinSlash (dirs ++ [n])) 0 } w hr hw
        refine ⟨r2, w2, h1, h2, ?_⟩
        refine ScanResult.chain _ _ _ r _ r2 (ScanResult.register r _) h3 (fun k => ?_)
        simp only [mapKeys, List.map_cons]
        rw [ScanKey_cons_file recursive extensions dirs sub _ n d rd wr k hget]
        simp [hm, mapKeys]
      · simp only [hm, if_false]
        obtain ⟨r2, w2, h1, h2, h3⟩ := ih hrest r w hr hw
        refine ⟨r2, w2, h1, h2, ?_⟩
        refine ScanResult.chain _ _ _ r r r2 (ScanResult.same (fun _ => False) r (by simp)) h3
          (fun k => ?_)
        simp only [mapKeys, List.map_cons]
        rw [ScanKey_cons_file recursive extensions dirs sub _ n d rd wr k hget]
        simp [hm, mapKeys]
    | dir sub2 =>
      simp only [Node.isDir, if_true]
      cases recursive with
      | true =>
        simp only [if_true]
        obtain ⟨r1, w1, g1, g2, g3⟩ := hself n sub2 r w hmem rfl hr hw
        simp only [g1]
        obtain ⟨r2, w2, h1, h2, h3⟩ := ih hrest r1 w1 (g3.1.trans hr) g2
        refine ⟨r2, w2, h1, h2, ?_⟩
        refine ScanResult.chain _ _ _ r r1 r2 g3 h3 (fun k => ?_)
        simp only [mapKeys, List.map_cons]
        rw [ScanKey_cons_dir_rec extensions dirs sub sub2 _ n k hget]
        simp [mapKeys]
      | false =>
        simp only [Bool.false_eq_true, if_false]
        obtain ⟨r2, w2, h1, h2, h3⟩ := ih hrest r w hr hw
        refine ⟨r2, w2, h1, h2, ?_⟩
        refine ScanResult.chain _ _ _ r r r2 (ScanResult.same (fun _ => False) r (by simp)) h3
          (fun k => ?_)
        simp only [mapKeys, List.map_cons]
        rw [ScanKey_cons_dir_flat extensions dirs sub sub2 _ n k hget]
        simp [mapKeys]

theorem scan_spec (fs : FS) (loc : String) (pos0 : List String) (recursive : Bool)
    (extensions : Option (List String)) (hloc : fs.resolve loc = some pos0) (fuel : Nat) :
    ∀ (dirs : List String) (sub : List (String × Node)) (r : Repo) (w : World),
      r.location = loc → w.fs = fs → (∀ x ∈ dirs, validName x = true) →
      fs.root.walk (pos0 ++ dirs) = .ok (Node.dir sub) → (Node.dir sub).wf = true →
      (Node.dir sub).height ≤ fuel →
      ∃ r2 w2, Repo.scan fuel r w (joinSlash dirs) recursive extensions = .ok (r2, w2) ∧
        w2.fs = fs ∧
        ScanResult (ScanKey recursive extensions dirs sub (mapKeys sub)) r r2 := by
  induction fuel with
  | zero =>
    intro dirs sub r w _ _ _ _ _ hh
    simp [Node.height] at hh
  | succ fuel ih =>
    intro dirs sub r w hr hw hdirs hwalk hwf hh
    have hres : w.fs.lookup (Join r.location (joinSlash dirs)) = .ok (Node.dir sub) := by
      rw [hr, hw]
      simp only [FS.lookup, FS.resolve_Join fs loc pos0 hloc dirs hdirs, hwalk]
    simp only [Repo.scan, World.ReadDir, FS.readDir, hres]
    refine scanFiles_spec fs loc recursive extensions _ dirs sub hdirs hwf ?_ sub
      (fun e he => he) r _ hr hw
    intro n sub2 r1 w1 hmem _ hr1 hw1
    have hget : mapGet sub n = some (Node.dir sub2) :=
      mapGet_of_mem sub n _ (Node.wf_dir sub hwf).1 hmem
    obtain ⟨hv, hcw⟩ := (Node.wf_dir sub hwf).2 _ hmem
    refine ih (dirs ++ [n]) sub2 r1 w1 hr1 hw1 ?_ ?_ hcw ?_
    · intro x hx
      simp only [List.mem_append, List.mem_singleton] at hx
      rcases hx with hx | hx
      · exact hdirs x hx
      · rw [hx]; exact hv
    · rw [← List.append_assoc, Node.walk_append _ _ _ _ hwalk]
      simp [Node.walk, hget]
    · have h1 := Node.height_le_heights sub _ hmem
      simp only [Node.height] at hh h1 ⊢
      omega

theorem extMatched_iff (extensions : Option (List String)) (name : String) :
    extMatched extensions name = true ↔ ∀ exts, extensions = some exts → Ext name ∈ exts := by
  cases extensions with
  | none => simp [extMatched]
  | some exts =>
    simp only [extMatched, List.any_eq_true, decide_eq_true_eq, Option.some.injEq]
    constructor
    · rintro ⟨e, he, rfl⟩ exts2 rfl
      exact he
    · intro h
      exact ⟨Ext name, h exts rfl, rfl⟩

theorem ScanKey_root_iff (recursive : Bool) (extensions : Option (List String))
    (es : List (String × Node)) (k : String) :
    ScanKey recursive extensions [] es (mapKeys es) k ↔
      ∃ path name, path.getLast? = some name ∧ k = joinSlash path ∧
        (recursive = false → path.length = 1) ∧
        (∃ d rd wr, Node.walk (.dir es) path = .ok (Node.file d rd wr)) ∧
        (∀ exts, extensions = some exts → Ext name ∈ exts) := by
  constructor
  · rintro ⟨first, tail, name, _, hlast, hk, hrec, hwalk, hext⟩
    exact ⟨first :: tail, name, hlast, by simpa using hk,
      fun h => by simp [hrec h], hwalk, (extMatched_iff _ _).1 hext⟩
  · rintro ⟨path, name, hlast, hk, hrec, ⟨d, rd, wr, hwalk⟩, hext⟩
    cases path with
    | nil => simp at hlast
    | cons first tail =>
      refine ⟨first, tail, name, ?_, hlast, by simpa using hk, ?_, ⟨d, rd, wr, hwalk⟩,
        (extMatched_iff _ _).2 hext⟩
      · rw [mem_mapKeys_iff]
        simp only [Node.walk] at hwalk
        cases hg : mapGet es first with
        | none => simp [hg] at hwalk
        | some c => rfl
      · intro h
        simpa using hrec h

/-! ## What a single call changes -/

theorem Hash_cases (r : Repo) (w : World) (p : String) :
    (r.Hash w p).world.fs = w.fs ∧
    ((r.Hash w p).repo = r ∨
      (mapGet r.hashValue p = some 0 ∧
        ∃ c, w.fs.readFile (Join r.location p) = .ok c ∧
          (r.Hash w p).repo = { r with hashValue := mapSet r.hashValue p (r.hashFunc c) } ∧
          (r.Hash w p).ret = r.hashFunc c)) := by
  cases hg : mapGet r.hashValue p with
  | none => simp [Repo.Hash, hg]
  | some v =>
    by_cases hv : v = 0
    · subst hv
      cases hr : w.fs.readFile (Join r.location p) with
      | error e => simp [Repo.Hash, hg, World.ReadFile, hr]
      | ok c => simp [Repo.Hash, hg, World.ReadFile, hr]
    · simp [Repo.Hash, hg, hv]

theorem Save_cases (r : Repo) (w : World) (p : String) (data : Bytes) :
    ((r.Save w p data).repo = r ∧ (r.Save w p data).world.fs = w.fs) ∨
    (w.fs.writeFile (Join r.location p) data = .ok (r.Save w p data).world.fs ∧
      (r.Save w p data).repo = { r with hashValue := mapSet r.hashValue p (r.hashFunc data) }) := by
  cases hw : w.fs.writeFile (Join r.location p) data with
  | error e => simp [Repo.Save, World.WriteFile, hw]
  | ok fs2 => simp [Repo.Save, World.WriteFile, hw]

theorem Read_cases (r : Repo) (w : World) (p : String) :
    (r.Read w p).repo = r ∧ (r.Read w p).world.fs = w.fs ∧
    (r.Read w p).ret = w.fs.readFile (Join r.location p) := by
  simp [Repo.Read, World.ReadFile]

theorem step_keys (r : Repo) (w : World) (op : Op) (k : String)
    (hk : k ∈ mapKeys r.hashValue) : k ∈ mapKeys (r.step w op).1.hashValue := by
  cases op with
  | Hash p =>
    simp only [Repo.step]
    rcases (Hash_cases r w p).2 with h | ⟨_, c, _, h, _⟩
    · rw [h]; exact hk
    · rw [h]; exact (mem_mapKeys_mapSet _ _ _ _).2 (Or.inl hk)
  | Read p =>
    simp only [Repo.step]
    rw [(Read_cases r w p).1]; exact hk
  | Save p data =>
    simp only [Repo.step]
    rcases Save_cases r w p data with ⟨h, _⟩ | ⟨_, h⟩
    · rw [h]; exact hk
    · rw [h]; exact (mem_mapKeys_mapSet _ _ _ _).2 (Or.inl hk)

theorem run_keys (ops : List Op) (r : Repo) (w : World) (k : String)
    (hk : k ∈ mapKeys r.hashValue) : k ∈ mapKeys (run ops r w).1.hashValue := by
  induction ops generalizing r w with
  | nil => exact hk
  | cons op rest ih =>
    simp only [run]
    exact ih _ _ (step_keys r w op k hk)

/-! ## Read, construction without hash function, monotone keys, Hash -/

/-- C11. `Read(p)` returns what reading the file at `root/p` gives: its content when it
is a readable regular file, an error otherwise; the result is the same for every index
(so whether or not `p` is a key), and the repository is left as it was. -/
theorem Read_independent (r : Repo) (w : World) (p : String) :
    (r.Read w p).ret = w.fs.readFile (Join r.location p) ∧
    (∀ data wr, w.fs.lookup (Join r.location p) = .ok (Node.file data true wr) →
      (r.Read w p).ret = .ok data) ∧
    ((¬ ∃ data wr, w.fs.lookup (Join r.location p) = .ok (Node.file data true wr)) →
      ∃ e, (r.Read w p).ret = .error e) ∧
    (r.Read w p).repo = r ∧
    ∀ index : List (String × Nat),
      ({ r with hashValue := index }.Read w p).ret = (r.Read w p).ret := by
  refine ⟨by simp [Repo.Read, World.ReadFile], ?_, ?_, by simp [Repo.Read, World.ReadFile],
    fun index => by simp [Repo.Read, World.ReadFile]⟩
  · intro data wr h
    simp [Repo.Read, World.ReadFile, FS.readFile, h]
  · intro h
    simp only [Repo.Read, World.ReadFile, FS.readFile]
    cases hl : w.fs.lookup (Join r.location p) with
    | error e => exact ⟨e, rfl⟩
    | ok n =>
      cases n with
      | dir es => exact ⟨.EISDIR, rfl⟩
      | file d rd wr =>
        cases rd with
        | false => exact ⟨.EACCES, by simp⟩
        | true => exact absurd ⟨d, wr, hl⟩ h

/-- Witness of C11: `b.json` is on disk, readable, and not a key. -/
theorem Read_independent_witness :
    mapGet exRepo.hashValue "b.json" = none ∧
    (exRepo.Read exWorld "b.json").ret = exWorld.fs.readFile (Join exRepo.location "b.json") ∧
    (∀ data wr, exWorld.fs.lookup (Join exRepo.location "b.json")
        = .ok (Node.file data true wr) → (exRepo.Read exWorld "b.json").ret = .ok data) ∧
    ((¬ ∃ data wr, exWorld.fs.lookup (Join exRepo.location "b.json")
        = .ok (Node.file data true wr)) → ∃ e, (exRepo.Read exWorld "b.json").ret = .error e) ∧
    (exRepo.Read exWorld "b.json").repo = exRepo ∧
    ∀ index : List (String × Nat),
      ({ exRepo with hashValue := index }.Read exWorld "b.json").ret
        = (exRepo.Read exWorld "b.json").ret :=
  ⟨by decide, Read_independent exRepo exWorld "b.json"⟩

/-- C12. `New` called with a nil hash function panics, whatever the other arguments,
and returns no repository. -/
theorem New_without_hashFunc (fuel : Nat) (w : World) (location : String)
    (recursive : Bool) (extensions : Option (List String)) :
    New fuel w location recursive extensions none = .error .noHashFunc := by
  simp [New]

/-- C13. Every key of the index is still a key after any single call of `Hash`, `Read`
or `Save`, and therefore after any sequence of such calls. -/
theorem keys_never_removed (r : Repo) (w : World) (k : String)
    (hk : k ∈ mapKeys r.hashValue) :
    (∀ op : Op, k ∈ mapKeys (r.step w op).1.hashValue) ∧
    (∀ ops : List Op, k ∈ mapKeys (run ops r w).1.hashValue) :=
  ⟨fun op => step_keys r w op k hk, fun ops => run_keys ops r w k hk⟩

/-- Witness of C13: the key `gone.txt`, whose file does not exist. -/
theorem keys_never_removed_witness :
    "gone.txt" ∈ mapKeys exRepo.hashValue ∧
    (∀ op : Op, "gone.txt" ∈ mapKeys (exRepo.step exWorld op).1.hashValue) ∧
    (∀ ops : List Op, "gone.txt" ∈ mapKeys (run ops exRepo exWorld).1.hashValue) :=
  ⟨by decide, keys_never_removed exRepo exWorld "gone.txt" (by decide)⟩

/-- C15. `Hash(p)` leaves the keys of the index as they are, leaves the entry of every
other key and every nonzero entry unchanged, and does not modify the filesystem; either
the repository is unchanged, or the entry of `p` was `0` and is replaced by the hash
of the content just read. -/
theorem Hash_only_upgrades (r : Repo) (w : World) (p : String) :
    mapKeys (r.Hash w p).repo.hashValue = mapKeys r.hashValue ∧
    (∀ k, k ≠ p → mapGet (r.Hash w p).repo.hashValue k = mapGet r.hashValue k) ∧
    (∀ k v, mapGet r.hashValue k = some v → v ≠ 0 →
      mapGet (r.Hash w p).repo.hashValue k = some v) ∧
    (r.Hash w p).world.fs = w.fs ∧
    ((r.Hash w p).repo = r ∨
      (mapGet r.hashValue p = some 0 ∧
        ∃ c, w.fs.readFile (Join r.location p) = .ok c ∧
          (r.Hash w p).repo = { r with hashValue := mapSet r.hashValue p (r.hashFunc c) } ∧
          (r.Hash w p).ret = r.hashFunc c)) := by
  obtain ⟨hfs, hcase⟩ := Hash_cases r w p
  refine ⟨?_, ?_, ?_, hfs, hcase⟩
  · rcases hcase with h | ⟨h0, c, _, h, _⟩
    · rw [h]
    · rw [h]
      exact mapKeys_mapSet_of_mem _ _ _ ((mem_mapKeys_iff _ _).2 (by simp [h0]))
  · intro k hk
    rcases hcase with h | ⟨_, c, _, h, _⟩
    · rw [h]
    · rw [h]
      exact mapGet_mapSet_ne _ _ _ _ hk
  · intro k v hkv hv
    rcases hcase with h | ⟨h0, c, _, h, _⟩
    · rw [h]; exact hkv
    · rw [h]
      have hk : k ≠ p := by
        intro e
        rw [e, h0] at hkv
        injection hkv with hkv
        exact hv hkv.symm
      simp only [mapGet_mapSet_ne _ _ _ _ hk]
      exact hkv

/-- Witness of C15: the first `Hash` of `a.txt` in the example repository. -/
theorem Hash_only_upgrades_witness :
    mapKeys (exRepo.Hash exWorld "a.txt").repo.hashValue = mapKeys exRepo.hashValue ∧
    (∀ k, k ≠ "a.txt" →
      mapGet (exRepo.Hash exWorld "a.txt").repo.hashValue k = mapGet exRepo.hashValue k) ∧
    (∀ k v, mapGet exRepo.hashValue k = some v → v ≠ 0 →
      mapGet (exRepo.Hash exWorld "a.txt").repo.hashValue k = some v) ∧
    (exRepo.Hash exWorld "a.txt").world.fs = exWorld.fs ∧
    ((exRepo.Hash exWorld "a.txt").repo = exRepo ∨
      (mapGet exRepo.hashValue "a.txt" = some 0 ∧
        ∃ c, exWorld.fs.readFile (Join exRepo.location "a.txt") = .ok c ∧
          (exRepo.Hash exWorld "a.txt").repo
            = { exRepo with hashValue := mapSet exRepo.hashValue "a.txt" (exRepo.hashFunc c) } ∧
          (exRepo.Hash exWorld "a.txt").ret = exRepo.hashFunc c)) :=
  Hash_only_upgrades exRepo exWorld "a.txt"

/-! ## The repository `New` returns -/

theorem New_spec (fuel : Nat) (w : World) (location : String) (recursive : Bool)
    (extensions : Option (List String)) (hashFunc : Bytes → Nat)
    (es : List (String × Node))
    (hroot : w.fs.lookup location = .ok (Node.dir es)) (hwf : (Node.dir es).wf = true)
    (hfuel : (Node.dir es).height ≤ fuel) :
    ∃ r w2, New fuel w location recursive extensions (some hashFunc) = .ok (r, w2) ∧
      r.location = location ∧ r.hashFunc = hashFunc ∧ w2.fs = w.fs ∧
      (∀ k, k ∈ mapKeys r.hashValue ↔
        ScanKey recursive extensions [] es (mapKeys es) k) ∧
      (∀ k v, mapGet r.hashValue k = some v → v = 0) := by
  have hstat : w.fs.stat location = .ok true := by
    simp [FS.stat, hroot, Node.isDir]
  cases hres : w.fs.resolve location with
  | none => simp [FS.lookup, hres] at hroot
  | some pos0 =>
    have hwalk : w.fs.root.walk (pos0 ++ []) = .ok (Node.dir es) := by
      simpa [FS.lookup, hres] using hroot
    obtain ⟨r, w2, h1, h2, h3, h4, h5, h6⟩ :=
      scan_spec w.fs location pos0 recursive extensions hres fuel [] es
        { location := location, hashFunc := hashFunc, hashValue := [] }
        { w with calls := w.calls ++ [Call.Stat location] } rfl rfl (by simp) hwalk hwf hfuel
    refine ⟨r, w2, ?_, h3, h4, h2, ?_, h6 (by simp [mapGet])⟩
    · simp only [New, World.Stat, hstat]
      exact h1
    · intro k
      rw [h5]
      simp [mapKeys]

theorem FS.lookup_Join_of_walk (fs : FS) (location : String) (es : List (String × Node))
    (hroot : fs.lookup location = .ok (Node.dir es)) (hwf : (Node.dir es).wf = true)
    (path : List String) (n : Node) (hwalk : Node.walk (.dir es) path = .ok n) :
    fs.lookup (Join location (joinSlash path)) = .ok n := by
  cases hres : fs.resolve location with
  | none => simp [FS.lookup, hres] at hroot
  | some pos0 =>
    have h0 : fs.root.walk pos0 = .ok (Node.dir es) := by
      simpa [FS.lookup, hres] using hroot
    have hv := (Node.walk_valid path es n hwf hwalk).1
    simp only [FS.lookup, FS.resolve_Join fs location pos0 hres path hv]
    rw [Node.walk_append _ _ _ _ h0]
    exact hwalk

theorem fileReads_append_ReadFile (cs : List Call) (p : String) :
    fileReads (cs ++ [Call.ReadFile p]) = fileReads cs ++ [p] := by
  simp [fileReads, List.filterMap_append]

theorem Hash_of_zero_entry (r : Repo) (w : World) (p : String)
    (hp : mapGet r.hashValue p = some 0) :
    (r.Hash w p).world.calls = w.calls ++ [Call.ReadFile (Join r.location p)] ∧
    (∀ c, w.fs.readFile (Join r.location p) = .ok c → (r.Hash w p).ret = r.hashFunc c) ∧
    (∀ e, w.fs.readFile (Join r.location p) = .error e → (r.Hash w p).ret = 0) := by
  cases hr : w.fs.readFile (Join r.location p) with
  | error e => simp [Repo.Hash, hp, World.ReadFile, hr]
  | ok c => simp [Repo.Hash, hp, World.ReadFile, hr]

theorem Hash_of_zero_content (r : Repo) (w : World) (p : String) (c : Bytes)
    (hp : mapGet r.hashValue p = some 0)
    (hread : w.fs.readFile (Join r.location p) = .ok c) (hz : r.hashFunc c = 0) :
    r.Hash w p = ⟨0, r, { w with calls := w.calls ++ [Call.ReadFile (Join r.location p)] }⟩ := by
  have hset : mapSet r.hashValue p 0 = r.hashValue := mapSet_of_mapGet _ _ _ hp
  simp [Repo.Hash, hp, World.ReadFile, hread, hz, hset]

theorem run_Hash_of_zero_content (r : Repo) (p : String) (c : Bytes) (fs : FS)
    (hp : mapGet r.hashValue p = some 0)
    (hread : fs.readFile (Join r.location p) = .ok c) (hz : r.hashFunc c = 0) (n : Nat) :
    ∀ w : World, w.fs = fs →
      run (List.replicate n (Op.Hash p)) r w
        = (r, { w with calls := w.calls ++
            List.replicate n (Call.ReadFile (Join r.location p)) }) := by
  induction n with
  | zero =>
    intro w _
    simp [run]
  | succ n ih =>
    intro w hw
    have h1 := Hash_of_zero_content r w p c hp (by rw [hw]; exact hread) hz
    simp only [List.replicate_succ, run, Repo.step, h1]
    rw [ih { fs := w.fs, calls := w.calls ++ [Call.ReadFile (Join r.location p)] } hw]
    simp [List.append_assoc]

theorem fileReads_append_replicate (cs : List Call) (p : String) (n : Nat) :
    fileReads (cs ++ List.replicate n (Call.ReadFile p))
      = fileReads cs ++ List.replicate n p := by
  induction n generalizing cs with
  | zero => simp
  | succ n ih =>
    have h : cs ++ List.replicate (n + 1) (Call.ReadFile p)
        = (cs ++ [Call.ReadFile p]) ++ List.replicate n (Call.ReadFile p) := by
      simp [List.replicate_succ]
    rw [h, ih, fileReads_append_ReadFile]
    simp [List.replicate_succ]

/-! ## The zero hash, the empty filter, the first Hash after the scan -/

/-- C14, as stated, fails: after `Save("a.txt", [5])` and `Save("./a.txt", [])` on the
scanned example directory, `a.txt` is a key, its file is readable with a content whose
hash is `0`, and yet `Hash("a.txt")` returns the cached `5` without reading. -/
theorem Hash_zero_hash_counterexample :
    New 2 exWorld "/root" true none (some sumHash) = .ok (exScanned, exScannedWorld) ∧
    mapGet (run [Op.Save "a.txt" [5], Op.Save "./a.txt" []] exScanned
      exScannedWorld).1.hashValue "a.txt" = some 5 ∧
    (run [Op.Save "a.txt" [5], Op.Save "./a.txt" []] exScanned
      exScannedWorld).2.fs.readFile (Join "/root" "a.txt") = .ok [] ∧
    sumHash [] = 0 ∧
    ((run [Op.Save "a.txt" [5], Op.Save "./a.txt" []] exScanned exScannedWorld).1.Hash
      (run [Op.Save "a.txt" [5], Op.Save "./a.txt" []] exScanned exScannedWorld).2
      "a.txt").ret = 5 ∧
    ((run [Op.Save "a.txt" [5], Op.Save "./a.txt" []] exScanned exScannedWorld).1.Hash
      (run [Op.Save "a.txt" [5], Op.Save "./a.txt" []] exScanned exScannedWorld).2
      "a.txt").world.calls
      = (run [Op.Save "a.txt" [5], Op.Save "./a.txt" []] exScanned exScannedWorld).2.calls :=
  ⟨rfl, by decide, rfl, by decide, by decide, by decide⟩

/-- C14, amended. For a key with cached value `0` whose file is readable with a content
whose hash is `0`: after any number `n` of calls `Hash(p)` the repository is as before,
`n` reads of the file were made, and the next call reads the file again, returns `0`
and leaves the cached value at `0`. -/
theorem Hash_zero_hash_quirk (r : Repo) (w : World) (p : String) (c : Bytes)
    (hp : mapGet r.hashValue p = some 0)
    (hread : w.fs.readFile (Join r.location p) = .ok c) (hz : r.hashFunc c = 0) (n : Nat) :
    (run (List.replicate n (Op.Hash p)) r w).1 = r ∧
    (run (List.replicate n (Op.Hash p)) r w).2.fs = w.fs ∧
    fileReads (run (List.replicate n (Op.Hash p)) r w).2.calls
      = fileReads w.calls ++ List.replicate n (Join r.location p) ∧
    ((run (List.replicate n (Op.Hash p)) r w).1.Hash
      (run (List.replicate n (Op.Hash p)) r w).2 p).ret = 0 ∧
    ((run (List.replicate n (Op.Hash p)) r w).1.Hash
      (run (List.replicate n (Op.Hash p)) r w).2 p).world.calls
      = (run (List.replicate n (Op.Hash p)) r w).2.calls
        ++ [Call.ReadFile (Join r.location p)] ∧
    mapGet ((run (List.replicate n (Op.Hash p)) r w).1.Hash
      (run (List.replicate n (Op.Hash p)) r w).2 p).repo.hashValue p = some 0 := by
  rw [run_Hash_of_zero_content r p c w.fs hp hread hz n w rfl]
  have h1 := Hash_of_zero_content r
    { w with calls := w.calls ++ List.replicate n (Call.ReadFile (Join r.location p)) }
    p c hp hread hz
  refine ⟨rfl, rfl, fileReads_append_replicate _ _ _, ?_, ?_, ?_⟩
  · simp only [h1]
  · simp only [h1]
  · simp only [h1]
    exact hp

/-- Witness of the amended C14: the file `a.txt` after the empty content was saved to
it; three calls of `Hash`, then the fourth. -/
theorem Hash_zero_hash_quirk_witness :
    mapGet exZeroRepo.hashValue "a.txt" = some 0 ∧
    exZeroWorld.fs.readFile (Join exZeroRepo.location "a.txt") = .ok [] ∧
    exZeroRepo.hashFunc [] = 0 ∧
    (run (List.replicate 3 (Op.Hash "a.txt")) exZeroRepo exZeroWorld).1 = exZeroRepo ∧
    (run (List.replicate 3 (Op.Hash "a.txt")) exZeroRepo exZeroWorld).2.fs
      = exZeroWorld.fs ∧
    fileReads (run (List.replicate 3 (Op.Hash "a.txt")) exZeroRepo exZeroWorld).2.calls
      = fileReads exZeroWorld.calls
        ++ List.replicate 3 (Join exZeroRepo.location "a.txt") ∧
    ((run (List.replicate 3 (Op.Hash "a.txt")) exZeroRepo exZeroWorld).1.Hash
      (run (List.replicate 3 (Op.Hash "a.txt")) exZeroRepo exZeroWorld).2 "a.txt").ret
      = 0 ∧
    ((run (List.replicate 3 (Op.Hash "a.txt")) exZeroRepo exZeroWorld).1.Hash
      (run (List.replicate 3 (Op.Hash "a.txt")) exZeroRepo exZeroWorld).2
      "a.txt").world.calls
      = (run (List.replicate 3 (Op.Hash "a.txt")) exZeroRepo exZeroWorld).2.calls
        ++ [Call.ReadFile (Join exZeroRepo.location "a.txt")] ∧
    mapGet ((run (List.replicate 3 (Op.Hash "a.txt")) exZeroRepo exZeroWorld).1.Hash
      (run (List.replicate 3 (Op.Hash "a.txt")) exZeroRepo exZeroWorld).2
      "a.txt").repo.hashValue "a.txt" = some 0 :=
  ⟨by decide, rfl, by decide,
    Hash_zero_hash_quirk exZeroRepo exZeroWorld "a.txt" [] (by decide) rfl (by decide) 3⟩

/-- C16, as stated, fails: on the example directory an empty, non-nil extension list
indexes nothing, while a nil list indexes all four files. -/
theorem New_empty_filter_counterexample :
    indexOf (New 2 exWorld "/root" true (some []) (some sumHash)) = some [] ∧
    indexOf (New 2 exWorld "/root" true none (some sumHash))
      = some [("a.txt", 0), ("b.json", 0), ("c.txt", 0), ("sub/d.txt", 0)] := by
  decide

/-- C16, amended. Constructing with a nil extension list indexes every regular file the
scan encounters (of the first level only unless `recursive`); constructing with an
empty, non-nil list indexes no file. -/
theorem New_nil_or_empty_filter (fuel : Nat) (w : World) (location : String)
    (recursive : Bool) (hashFunc : Bytes → Nat) (es : List (String × Node))
    (hroot : w.fs.lookup location = .ok (Node.dir es)) (hwf : (Node.dir es).wf = true)
    (hfuel : (Node.dir es).height ≤ fuel) :
    (∃ r w2, New fuel w location recursive none (some hashFunc) = .ok (r, w2) ∧
      ∀ k, k ∈ mapKeys r.hashValue ↔
        ∃ path, path ≠ [] ∧ k = joinSlash path ∧ (recursive = false → path.length = 1) ∧
          ∃ d rd wr, Node.walk (.dir es) path = .ok (Node.file d rd wr)) ∧
    (∃ r w2, New fuel w location recursive (some []) (some hashFunc) = .ok (r, w2) ∧
      r.hashValue = []) := by
  constructor
  · obtain ⟨r, w2, h1, _, _, _, h5, _⟩ :=
      New_spec fuel w location recursive none hashFunc es hroot hwf hfuel
    refine ⟨r, w2, h1, fun k => ?_⟩
    rw [h5, ScanKey_root_iff]
    constructor
    · rintro ⟨path, name, hlast, hk, hrec, hfile, _⟩
      refine ⟨path, ?_, hk, hrec, hfile⟩
      intro e
      simp [e] at hlast
    · rintro ⟨path, hne, hk, hrec, hfile⟩
      refine ⟨path, path.getLast hne, List.getLast?_eq_getLast _ hne, hk, hrec, hfile, ?_⟩
      intro exts h
      cases h
  · obtain ⟨r, w2, h1, _, _, _, h5, _⟩ :=
      New_spec fuel w location recursive (some []) hashFunc es hroot hwf hfuel
    refine ⟨r, w2, h1, ?_⟩
    have hnone : ∀ k, k ∉ mapKeys r.hashValue := by
      intro k hk
      obtain ⟨path, name, _, _, _, _, hext⟩ := (ScanKey_root_iff _ _ _ _).1 ((h5 k).1 hk)
      simpa using hext [] rfl
    cases hv : r.hashValue with
    | nil => rfl
    | cons e rest =>
      exact absurd (by simp [mapKeys, hv]) (hnone e.1)

/-- Witness of the amended C16: the example directory, scanned recursively. -/
theorem New_nil_or_empty_filter_witness :
    exWorld.fs.lookup "/root" = .ok (Node.dir exEntries) ∧
    (Node.dir exEntries).wf = true ∧ (Node.dir exEntries).height ≤ 2 ∧
    (∃ r w2, New 2 exWorld "/root" true none (some sumHash) = .ok (r, w2) ∧
      ∀ k, k ∈ mapKeys r.hashValue ↔
        ∃ path, path ≠ [] ∧ k = joinSlash path ∧ (true = false → path.length = 1) ∧
          ∃ d rd wr, Node.walk (.dir exEntries) path = .ok (Node.file d rd wr)) ∧
    (∃ r w2, New 2 exWorld "/root" true (some []) (some sumHash) = .ok (r, w2) ∧
      r.hashValue = []) :=
  ⟨rfl, by decide, by decide,
    New_nil_or_empty_filter 2 exWorld "/root" true sumHash exEntries rfl (by decide)
      (by decide)⟩

/-- C17, as stated, fails: the scan registers the unreadable `s.txt`, the key resolves
to that file, whose content has hash `7`, and the first `Hash` returns `0`. -/
theorem first_Hash_after_scan_counterexample :
    New 2 { fs := exLockedFS, calls := [] } "/root" true none (some sumHash)
      = .ok (exLocked, exLockedWorld) ∧
    exLockedWorld.fs.lookup (Join "/root" "s.txt") = .ok (Node.file [7] false true) ∧
    sumHash [7] = 7 ∧
    (exLocked.Hash exLockedWorld "s.txt").ret = 0 :=
  ⟨rfl, rfl, by decide, by decide⟩

/-- C17, amended. On a well-formed directory tree at `location`, for every key `k` the
scan registered: `k` is the `/`-joined path of a regular file of the tree, the path
`Join(location, k)` denotes that very file, and the first `Hash(k)` makes exactly one
call, the read of that path, and returns `hashFunc` of the content of the file when the
file is readable and `0` when it is not. -/
theorem first_Hash_after_scan (fuel : Nat) (w : World) (location : String)
    (recursive : Bool) (extensions : Option (List String)) (hashFunc : Bytes → Nat)
    (es : List (String × Node))
    (hroot : w.fs.lookup location = .ok (Node.dir es)) (hwf : (Node.dir es).wf = true)
    (hfuel : (Node.dir es).height ≤ fuel) :
    ∃ r w2, New fuel w location recursive extensions (some hashFunc) = .ok (r, w2) ∧
      ∀ k, k ∈ mapKeys r.hashValue →
        ∃ path d rd wr, k = joinSlash path ∧
          Node.walk (.dir es) path = .ok (Node.file d rd wr) ∧
          w2.fs.lookup (Join location k) = .ok (Node.file d rd wr) ∧
          (r.Hash w2 k).world.calls = w2.calls ++ [Call.ReadFile (Join location k)] ∧
          (r.Hash w2 k).ret = if rd = true then hashFunc d else 0 := by
  obtain ⟨r, w2, h1, hloc, hfun, hfs, h5, h6⟩ :=
    New_spec fuel w location recursive extensions hashFunc es hroot hwf hfuel
  refine ⟨r, w2, h1, fun k hk => ?_⟩
  obtain ⟨first, tail, name, _, _, hkey, _, ⟨d, rd, wr, hwalk⟩, _⟩ := (h5 k).1 hk
  have hkey2 : k = joinSlash (first :: tail) := by simpa using hkey
  have hlook : w2.fs.lookup (Join location k) = .ok (Node.file d rd wr) := by
    rw [hfs, hkey2]
    exact FS.lookup_Join_of_walk w.fs location es hroot hwf _ _ hwalk
  have hzero : mapGet r.hashValue k = some 0 := by
    rw [mem_mapKeys_iff] at hk
    cases hg : mapGet r.hashValue k with
    | none => simp [hg] at hk
    | some v => rw [h6 k v hg]
  obtain ⟨g1, g2, g3⟩ := Hash_of_zero_entry r w2 k hzero
  rw [hloc] at g1 g2 g3
  refine ⟨first :: tail, d, rd, wr, hkey2, hwalk, hlook, g1, ?_⟩
  cases rd with
  | true =>
    rw [g2 d (by simp [FS.readFile, hlook]), hfun]
    simp
  | false =>
    rw [g3 .EACCES (by simp [FS.readFile, hlook])]
    simp

/-- Witness of the amended C17: the example directory, scanned recursively for
`.txt`. -/
theorem first_Hash_after_scan_witness :
    exWorld.fs.lookup "/root" = .ok (Node.dir exEntries) ∧
    (Node.dir exEntries).wf = true ∧ (Node.dir exEntries).height ≤ 2 ∧
    ∃ r w2, New 2 exWorld "/root" true (some [".txt"]) (some sumHash) = .ok (r, w2) ∧
      ∀ k, k ∈ mapKeys r.hashValue →
        ∃ path d rd wr, k = joinSlash path ∧
          Node.walk (.dir exEntries) path = .ok (Node.file d rd wr) ∧
          w2.fs.lookup (Join "/root" k) = .ok (Node.file d rd wr) ∧
          (r.Hash w2 k).world.calls = w2.calls ++ [Call.ReadFile (Join "/root" k)] ∧
          (r.Hash w2 k).ret = if rd = true then sumHash d else 0 :=
  ⟨rfl, by decide, by decide,
    first_Hash_after_scan 2 exWorld "/root" true (some [".txt"]) sumHash exEntries rfl
      (by decide) (by decide)⟩

/-! ## Writing one file leaves the other files alone -/

theorem Node.walk_put_other (pos : List String) :
    ∀ (n n2 : Node) (pos2 : List String) (data d : Bytes) (rd wr : Bool),
      Node.put n pos data = .ok n2 → pos2 ≠ pos →
      Node.walk n pos2 = .ok (Node.file d rd wr) →
      Node.walk n2 pos2 = .ok (Node.file d rd wr) := by
  induction pos with
  | nil =>
    intro n n2 pos2 data d rd wr h
    cases n <;> simp [Node.put] at h
  | cons c cs ih =>
    intro n n2 pos2 data d rd wr h hne hwalk
    cases n with
    | file d0 r0 w0 => simp [Node.put] at h
    | dir es =>
      cases pos2 with
      | nil => simp [Node.walk] at hwalk
      | cons c1 cs1 =>
        by_cases hc : c1 = c
        · subst hc
          have hcs : cs1 ≠ cs := fun e => hne (by rw [e])
          simp only [Node.walk] at hwalk
          cases hg : mapGet es c1 with
          | none => simp [hg] at hwalk
          | some child =>
            simp only [hg] at hwalk
            cases cs with
            | nil =>
              cases child with
              | dir es2 => simp [Node.put, hg] at h
              | file d1 r1 w1 =>
                cases cs1 with
                | nil => exact absurd rfl hcs
                | cons x xs => simp [Node.walk] at hwalk
            | cons c2 cs2 =>
              simp only [Node.put, hg] at h
              cases hp : Node.put child (c2 :: cs2) data with
              | error e => simp [hp] at h
              | ok child2 =>
                simp only [hp] at h
                injection h with h
                subst h
                simp only [Node.walk, mapGet_mapSet_self]
                exact ih child child2 cs1 data d rd wr hp hcs hwalk
        · have hwalk2 : ∀ (x : Node),
              Node.walk (Node.dir (mapSet es c x)) (c1 :: cs1) = .ok (Node.file d rd wr) := by
            intro x
            simp only [Node.walk, mapGet_mapSet_ne _ _ _ _ hc]
            simpa [Node.walk] using hwalk
          cases cs with
          | nil =>
            simp only [Node.put] at h
            split at h
            · injection h with h
              subst h
              exact hwalk2 _
            · split at h
              · injection h with h
                subst h
                exact hwalk2 _
              · cases h
            · cases h
          | cons c2 cs2 =>
            simp only [Node.put] at h
            split at h
            · cases h
            · split at h
              · injection h with h
                subst h
                exact hwalk2 _
              · cases h

theorem FS.resolve_writeFile (fs fs2 : FS) (p q : String) (data : Bytes)
    (h : fs.writeFile p data = .ok fs2) : fs2.resolve q = fs.resolve q := by
  unfold FS.writeFile at h
  split at h
  · cases h
  · split at h
    · injection h with h
      subst h
      simp [FS.resolve]
    · cases h

theorem FS.lookup_writeFile_other (fs fs2 : FS) (p q : String) (data d : Bytes)
    (rd wr : Bool) (h : fs.writeFile p data = .ok fs2)
    (hne : fs.resolve q ≠ fs.resolve p)
    (hq : fs.lookup q = .ok (Node.file d rd wr)) :
    fs2.lookup q = .ok (Node.file d rd wr) := by
  have hres := FS.resolve_writeFile fs fs2 p q data h
  unfold FS.writeFile at h
  cases hp : fs.resolve p with
  | none => simp [hp] at h
  | some pos =>
    simp only [hp] at h
    cases hput : fs.root.put pos data with
    | error e => simp [hput] at h
    | ok root2 =>
      simp only [hput] at h
      injection h with h
      subst h
      cases hqr : fs.resolve q with
      | none => simp [FS.lookup, hqr] at hq
      | some pos2 =>
        have hq2 : fs.root.walk pos2 = .ok (Node.file d rd wr) := by
          simpa [FS.lookup, hqr] using hq
        have hne2 : pos2 ≠ pos := by
          intro e
          apply hne
          rw [hqr, hp, e]
        have hres2 : FS.resolve { root := root2, cwd := fs.cwd } q = some pos2 := by
          rw [← hqr]; exact hres
        simp only [FS.lookup, hres2]
        exact Node.walk_put_other pos fs.root root2 pos2 data d rd wr hput hne2 hq2

theorem FS.lookup_of_readFile (fs : FS) (p : String) (c : Bytes)
    (h : fs.readFile p = .ok c) : ∃ wr, fs.lookup p = .ok (Node.file c true wr) := by
  unfold FS.readFile at h
  split at h
  · rename_i data r wr hl
    cases r with
    | true =>
      simp only [if_true] at h
      injection h with h
      subst h
      exact ⟨wr, hl⟩
    | false => simp at h
  · cases h
  · cases h

/-! ## Coherence of the cache -/

theorem step_location (r : Repo) (w : World) (op : Op) :
    (r.step w op).1.location = r.location ∧ (r.step w op).1.hashFunc = r.hashFunc := by
  cases op with
  | Hash p =>
    simp only [Repo.step]
    rcases (Hash_cases r w p).2 with h | ⟨_, c, _, h, _⟩ <;> rw [h] <;> exact ⟨rfl, rfl⟩
  | Read p =>
    simp only [Repo.step]
    rw [(Read_cases r w p).1]
    exact ⟨rfl, rfl⟩
  | Save p data =>
    simp only [Repo.step]
    rcases Save_cases r w p data with ⟨h, _⟩ | ⟨_, h⟩ <;> rw [h] <;> exact ⟨rfl, rfl⟩

theorem run_location (ops : List Op) (r : Repo) (w : World) :
    (run ops r w).1.location = r.location ∧ (run ops r w).1.hashFunc = r.hashFunc := by
  induction ops generalizing r w with
  | nil => exact ⟨rfl, rfl⟩
  | cons op rest ih =>
    simp only [run]
    obtain ⟨h1, h2⟩ := ih (r.step w op).1 (r.step w op).2
    obtain ⟨g1, g2⟩ := step_location r w op
    exact ⟨h1.trans g1, h2.trans g2⟩

theorem Coherent_of_zero (r : Repo) (w : World)
    (hz : ∀ k v, mapGet r.hashValue k = some v → v = 0) : Coherent r w := by
  intro k v hk hv
  exact absurd (hz k v hk) hv

theorem step_coherent (r : Repo) (w : World) (op : Op) (hc : Coherent r w)
    (hfree : op.aliasFree r w) : Coherent (r.step w op).1 (r.step w op).2 := by
  cases op with
  | Hash p =>
    simp only [Repo.step]
    obtain ⟨hfs, hcase⟩ := Hash_cases r w p
    intro k v hk hv
    rw [hfs]
    rcases hcase with h | ⟨_, c, hread, h, _⟩
    · rw [h] at hk ⊢
      exact hc k v hk hv
    · rw [h] at hk ⊢
      by_cases hkp : k = p
      · subst hkp
        rw [mapGet_mapSet_self] at hk
        injection hk with hk
        obtain ⟨wr, hl⟩ := FS.lookup_of_readFile _ _ _ hread
        exact ⟨c, true, wr, hl, hk.symm⟩
      · rw [mapGet_mapSet_ne _ _ _ _ hkp] at hk
        exact hc k v hk hv
  | Read p =>
    simp only [Repo.step]
    obtain ⟨h1, h2, _⟩ := Read_cases r w p
    intro k v hk hv
    rw [h1] at hk ⊢
    rw [h2]
    exact hc k v hk hv
  | Save p data =>
    simp only [Repo.step]
    intro k v hk hv
    rcases Save_cases r w p data with ⟨h1, h2⟩ | ⟨hw, h⟩
    · rw [h1] at hk ⊢
      rw [h2]
      exact hc k v hk hv
    · rw [h] at hk ⊢
      by_cases hkp : k = p
      · subst hkp
        rw [mapGet_mapSet_self] at hk
        injection hk with hk
        obtain ⟨rd, wr, hl⟩ := FS.lookup_writeFile _ _ _ _ hw
        exact ⟨data, rd, wr, hl, hk.symm⟩
      · rw [mapGet_mapSet_ne _ _ _ _ hkp] at hk
        obtain ⟨d, rd, wr, hl, hval⟩ := hc k v hk hv
        have hne := hfree k v hkp hk hv
        exact ⟨d, rd, wr, FS.lookup_writeFile_other _ _ _ _ _ _ _ _ hw hne hl, hval⟩

theorem run_coherent (ops : List Op) (r : Repo) (w : World) (hc : Coherent r w)
    (hfree : aliasFreeRun ops r w) : Coherent (run ops r w).1 (run ops r w).2 := by
  induction ops generalizing r w with
  | nil => exact hc
  | cons op rest ih =>
    simp only [run]
    exact ih _ _ (step_coherent r w op hc hfree.1) hfree.2

/-! ## A scan only writes zeros -/

theorem scanFiles_zero (self : Repo → World → String → Except Fault (Repo × World))
    (dir : String) (recursive : Bool) (extensions : Option (List String))
    (hself : ∀ r w name r2 w2, self r w name = .ok (r2, w2) →
      (∀ k v, mapGet r.hashValue k = some v → v = 0) →
      (∀ k v, mapGet r2.hashValue k = some v → v = 0) ∧
        r2.location = r.location ∧ r2.hashFunc = r.hashFunc)
    (files : List FileInfo) :
    ∀ r w r2 w2, scanFiles self dir recursive extensions files r w = .ok (r2, w2) →
      (∀ k v, mapGet r.hashValue k = some v → v = 0) →
      (∀ k v, mapGet r2.hashValue k = some v → v = 0) ∧
        r2.location = r.location ∧ r2.hashFunc = r.hashFunc := by
  induction files with
  | nil =>
    intro r w r2 w2 h hz
    simp only [scanFiles] at h
    injection h with h
    injection h with h1 h2
    subst h1
    exact ⟨hz, rfl, rfl⟩
  | cons file rest ih =>
    intro r w r2 w2 h hz
    simp only [scanFiles] at h
    split at h
    · split at h
      · split at h
        · rename_i r1 w1 hs
          obtain ⟨a1, a2, a3⟩ := hself _ _ _ _ _ hs hz
          obtain ⟨b1, b2, b3⟩ := ih _ _ _ _ h a1
          exact ⟨b1, b2.trans a2, b3.trans a3⟩
        · cases h
      · exact ih _ _ _ _ h hz
    · split at h
      · obtain ⟨b1, b2, b3⟩ := ih _ _ _ _ h ((ScanResult.register r _).2.2.2 hz)
        exact ⟨b1, b2, b3⟩
      · exact ih _ _ _ _ h hz

theorem scan_zero (fuel : Nat) (recursive : Bool) (extensions : Option (List String)) :
    ∀ (r : Repo) (w : World) (dir : String) (r2 : Repo) (w2 : World),
      Repo.scan fuel r w dir recursive extensions = .ok (r2, w2) →
      (∀ k v, mapGet r.hashValue k = some v → v = 0) →
      (∀ k v, mapGet r2.hashValue k = some v → v = 0) ∧
        r2.location = r.location ∧ r2.hashFunc = r.hashFunc := by
  induction fuel with
  | zero =>
    intro r w dir r2 w2 h
    simp [Repo.scan] at h
  | succ fuel ih =>
    intro r w dir r2 w2 h hz
    simp only [Repo.scan] at h
    split at h
    · cases h
    · exact scanFiles_zero _ dir recursive extensions
        (fun r1 w1 name r3 w3 hs hz1 => ih r1 w1 name r3 w3 hs hz1) _ _ _ _ _ h hz

theorem New_zero (fuel : Nat) (w : World) (location : String) (recursive : Bool)
    (extensions : Option (List String)) (hashFunc : Bytes → Nat) (r0 : Repo) (w0 : World)
    (h : New fuel w location recursive extensions (some hashFunc) = .ok (r0, w0)) :
    (∀ k v, mapGet r0.hashValue k = some v → v = 0) ∧
      r0.location = location ∧ r0.hashFunc = hashFunc := by
  have hz : ∀ (k : String) (v : Nat),
      mapGet ([] : List (String × Nat)) k = some v → v = 0 := by
    intro k v hk
    simp [mapGet] at hk
  simp only [New] at h
  split at h
  · split at h
    · split at h
      · cases h
      · exact scan_zero fuel recursive extensions _ _ _ _ _ h hz
    · exact scan_zero fuel recursive extensions _ _ _ _ _ h hz
  · exact scan_zero fuel recursive extensions _ _ _ _ _ h hz

/-! ## Concurrent calls of `Hash` -/

theorem Conc.run_single (r : Repo) (w : World) (p : String) :
    Conc.run p { pcs := [.start], repo := r, world := w } [0, 0, 0]
      = { pcs := [.done (r.Hash w p).ret], repo := (r.Hash w p).repo,
          world := (r.Hash w p).world } := by
  cases hg : mapGet r.hashValue p with
  | none => simp [Conc.run, Conc.step, hashStep, Repo.Hash, hg]
  | some v =>
    by_cases hv : v = 0
    · subst hv
      cases hr : w.fs.readFile (Join r.location p) with
      | error e => simp [Conc.run, Conc.step, hashStep, Repo.Hash, hg, World.ReadFile, hr]
      | ok c => simp [Conc.run, Conc.step, hashStep, Repo.Hash, hg, World.ReadFile, hr]
    · simp [Conc.run, Conc.step, hashStep, Repo.Hash, hg, hv]

theorem Conc.step_length (p : String) (s : Conc) (i : Nat) :
    (Conc.step p s i).pcs.length = s.pcs.length := by
  unfold Conc.step
  split
  · rfl
  · simp

theorem Conc.run_length (p : String) (sched : List Nat) (s : Conc) :
    (Conc.run p s sched).pcs.length = s.pcs.length := by
  induction sched generalizing s with
  | nil => rfl
  | cons i rest ih =>
    simp only [Conc.run, List.foldl_cons] at ih ⊢
    rw [ih, Conc.step_length]

theorem ConcInv.step (r0 : Repo) (fs0 : FS) (p : String) (c : Bytes)
    (hread : fs0.readFile (Join r0.location p) = .ok c) (s : Conc) (i : Nat)
    (hinv : ConcInv r0 fs0 p (r0.hashFunc c) s) :
    ConcInv r0 fs0 p (r0.hashFunc c) (Conc.step p s i) := by
  obtain ⟨h1, h2, h3, h4, h5, h6⟩ := hinv
  unfold Conc.step
  cases hi : s.pcs[i]? with
  | none => exact ⟨h1, h2, h3, h4, h5, h6⟩
  | some pc =>
    have hmem : pc ∈ s.pcs := List.getElem?_mem hi
    have keep : ∀ (pc2 : HashPC),
        (pc2 = .start ∨ pc2 = .read ∨ pc2 = .store (r0.hashFunc c)
          ∨ pc2 = .done (r0.hashFunc c)) →
        ∀ x ∈ s.pcs.set i pc2, x = .start ∨ x = .read ∨ x = .store (r0.hashFunc c)
          ∨ x = .done (r0.hashFunc c) := by
      intro pc2 hpc2 x hx
      rcases List.mem_or_eq_of_mem_set hx with hx | hx
      · exact h5 x hx
      · rw [hx]; exact hpc2
    have keepDone : ∀ (pc2 : HashPC), pc2.isDone = false →
        (∃ x ∈ s.pcs.set i pc2, x.isDone = true) → ∃ x ∈ s.pcs, x.isDone = true := by
      rintro pc2 hpc2 ⟨x, hx, hd⟩
      rcases List.mem_or_eq_of_mem_set hx with hx | hx
      · exact ⟨x, hx, hd⟩
      · rw [hx, hpc2] at hd
        cases hd
    rcases h5 pc hmem with hpc | hpc | hpc | hpc
    · subst hpc
      simp only [hashStep]
      by_cases hz : r0.hashFunc c = 0
      · have h0 : mapGet s.repo.hashValue p = some 0 := by
          rcases h4 with h | h
          · exact h
          · rw [h, hz]
        simp only [h0, ne_eq, not_true_eq_false, if_false]
        exact ⟨h1, h2, h3, h4, keep _ (Or.inr (Or.inl rfl)),
          fun hd => h6 (keepDone .read rfl hd)⟩
      · rcases h4 with h | h
        · simp only [h, ne_eq, not_true_eq_false, if_false]
          exact ⟨h1, h2, h3, Or.inl h, keep _ (Or.inr (Or.inl rfl)),
            fun hd => h6 (keepDone .read rfl hd)⟩
        · simp only [h, ne_eq, hz, not_false_eq_true, if_true]
          exact ⟨h1, h2, h3, Or.inr h, keep _ (Or.inr (Or.inr (Or.inr rfl))), fun _ => h⟩
    · subst hpc
      have hr : s.world.fs.readFile (Join s.repo.location p) = .ok c := by
        rw [h3, h1]; exact hread
      simp only [hashStep, World.ReadFile, hr, h2]
      exact ⟨h1, h2, h3, h4, keep _ (Or.inr (Or.inr (Or.inl rfl))),
        fun hd => h6 (keepDone (.store (r0.hashFunc c)) rfl hd)⟩
    · subst hpc
      simp only [hashStep]
      exact ⟨h1, h2, h3, Or.inr (mapGet_mapSet_self _ _ _),
        keep _ (Or.inr (Or.inr (Or.inr rfl))), fun _ => mapGet_mapSet_self _ _ _⟩
    · subst hpc
      simp only [hashStep]
      exact ⟨h1, h2, h3, h4, keep _ (Or.inr (Or.inr (Or.inr rfl))),
        fun _ => h6 ⟨_, hmem, rfl⟩⟩

theorem ConcInv.run (r0 : Repo) (fs0 : FS) (p : String) (c : Bytes)
    (hread : fs0.readFile (Join r0.location p) = .ok c) (sched : List Nat) (s : Conc)
    (hinv : ConcInv r0 fs0 p (r0.hashFunc c) s) :
    ConcInv r0 fs0 p (r0.hashFunc c) (Conc.run p s sched) := by
  induction sched generalizing s with
  | nil => exact hinv
  | cons i rest ih =>
    simp only [Conc.run, List.foldl_cons] at ih ⊢
    exact ih _ (ConcInv.step r0 fs0 p c hread s i hinv)

theorem hashStep_remaining (p : String) (r : Repo) (w : World) (pc : HashPC) :
    (hashStep p r w pc).1.remaining ≤ pc.remaining - 1 := by
  cases pc with
  | start =>
    simp only [hashStep]
    split
    · simp [HashPC.remaining]
    · split <;> simp [HashPC.remaining]
  | read =>
    simp only [hashStep]
    split <;> simp [HashPC.remaining]
  | store v => simp [hashStep, HashPC.remaining]
  | done ret => simp [hashStep, HashPC.remaining]

theorem Conc.step_remaining (p : String) (s : Conc) (i j : Nat) :
    (Conc.step p s j).remaining i ≤ s.remaining i - (if j = i then 1 else 0) := by
  unfold Conc.step
  cases hj : s.pcs[j]? with
  | none =>
    by_cases hji : j = i
    · subst hji
      simp [Conc.remaining, hj]
    · simp [hji]
  | some pc =>
    by_cases hji : j = i
    · subst hji
      have hlt : j < s.pcs.length := by
        rcases List.getElem?_eq_some_iff.1 hj with ⟨h, _⟩
        exact h
      have := hashStep_remaining p s.repo s.world pc
      simp only [Conc.remaining, List.getElem?_set_self hlt, hj, if_true]
      exact this
    · simp only [Conc.remaining, List.getElem?_set_ne hji, hji, if_false]
      omega

theorem Conc.run_remaining (p : String) (sched : List Nat) (s : Conc) (i : Nat) :
    (Conc.run p s sched).remaining i ≤ s.remaining i - sched.count i := by
  induction sched generalizing s with
  | nil => simp [Conc.run]
  | cons j rest ih =>
    simp only [Conc.run, List.foldl_cons] at ih ⊢
    have h1 := ih (Conc.step p s j)
    have h2 := Conc.step_remaining p s i j
    by_cases hji : j = i
    · subst hji
      simp only [if_true] at h2
      simp only [List.count_cons_self]
      omega
    · simp only [hji, if_false] at h2
      have hij : i ≠ j := fun e => hji e.symm
      rw [List.count_cons_of_ne hij]
      omega

theorem HashPC.isDone_of_remaining (pc : HashPC) (h : pc.remaining = 0) :
    pc.isDone = true := by
  cases pc with
  | done ret => rfl
  | start => simp [HashPC.remaining] at h
  | read => simp [HashPC.remaining] at h
  | store v => simp [HashPC.remaining] at h

/-- C18. `N ≥ 1` calls of `Hash(p)` run concurrently, in any interleaving of their
atomic steps, on a key with cached value `0` whose file is readable with content `c`:
every call that has returned has returned `hashFunc(c)`; once all have returned the
index maps `p` to `hashFunc(c)`; and all have returned as soon as each call was
scheduled three times. -/
theorem concurrent_Hash (r : Repo) (w : World) (p : String) (c : Bytes)
    (hp : mapGet r.hashValue p = some 0)
    (hread : w.fs.readFile (Join r.location p) = .ok c)
    (N : Nat) (hN : 0 < N) (sched : List Nat) :
    (∀ ret, HashPC.done ret ∈
        (Conc.run p { pcs := List.replicate N .start, repo := r, world := w } sched).pcs →
      ret = r.hashFunc c) ∧
    ((∀ pc ∈ (Conc.run p { pcs := List.replicate N .start, repo := r, world := w }
        sched).pcs, pc.isDone = true) →
      mapGet (Conc.run p { pcs := List.replicate N .start, repo := r, world := w }
        sched).repo.hashValue p = some (r.hashFunc c)) ∧
    ((∀ i, i < N → 3 ≤ sched.count i) →
      ∀ pc ∈ (Conc.run p { pcs := List.replicate N .start, repo := r, world := w }
        sched).pcs, pc.isDone = true) := by
  have hinit : ConcInv r w.fs p (r.hashFunc c)
      { pcs := List.replicate N .start, repo := r, world := w } := by
    refine ⟨rfl, rfl, rfl, Or.inl hp, ?_, ?_⟩
    · intro pc hpc
      exact Or.inl (List.eq_of_mem_replicate hpc)
    · rintro ⟨pc, hpc, hd⟩
      rw [List.eq_of_mem_replicate hpc] at hd
      cases hd
  obtain ⟨_, _, _, _, h5, h6⟩ := ConcInv.run r w.fs p c hread sched _ hinit
  have hlen := Conc.run_length p sched
    { pcs := List.replicate N .start, repo := r, world := w }
  simp only [List.length_replicate] at hlen
  refine ⟨?_, ?_, ?_⟩
  · intro ret hmem
    rcases h5 _ hmem with h | h | h | h
    · cases h
    · cases h
    · cases h
    · injection h
  · intro hall
    cases hpcs : (Conc.run p { pcs := List.replicate N .start, repo := r, world := w }
        sched).pcs with
    | nil =>
      rw [hpcs] at hlen
      simp only [List.length_nil] at hlen
      omega
    | cons pc rest =>
      exact h6 ⟨pc, by simp [hpcs], hall pc (by simp [hpcs])⟩
  · intro hfair pc hmem
    obtain ⟨i, hi⟩ := List.getElem?_of_mem hmem
    have hiN : i < N := by
      rcases List.getElem?_eq_some_iff.1 hi with ⟨h, _⟩
      omega
    have hrem := Conc.run_remaining p sched
      { pcs := List.replicate N .start, repo := r, world := w } i
    have h0 : Conc.remaining { pcs := List.replicate N .start, repo := r, world := w } i
        = 3 := by
      simp [Conc.remaining, List.getElem?_replicate_of_lt hiN, HashPC.remaining]
    have h3 := hfair i hiN
    rw [h0] at hrem
    simp only [Conc.remaining, hi] at hrem
    exact HashPC.isDone_of_remaining pc (by omega)

/-- Witness of C18: three concurrent calls of `Hash("a.txt")` on the example
repository, scheduled round-robin. -/
theorem concurrent_Hash_witness :
    mapGet exRepo.hashValue "a.txt" = some 0 ∧
    exWorld.fs.readFile (Join exRepo.location "a.txt") = .ok [1] ∧
    (∀ ret, HashPC.done ret ∈
        (Conc.run "a.txt" { pcs := List.replicate 3 .start, repo := exRepo, world := exWorld }
          [0, 1, 2, 0, 1, 2, 0, 1, 2]).pcs →
      ret = exRepo.hashFunc [1]) ∧
    ((∀ pc ∈ (Conc.run "a.txt"
        { pcs := List.replicate 3 .start, repo := exRepo, world := exWorld }
        [0, 1, 2, 0, 1, 2, 0, 1, 2]).pcs, pc.isDone = true) →
      mapGet (Conc.run "a.txt"
        { pcs := List.replicate 3 .start, repo := exRepo, world := exWorld }
        [0, 1, 2, 0, 1, 2, 0, 1, 2]).repo.hashValue "a.txt" = some (exRepo.hashFunc [1])) ∧
    ((∀ i, i < 3 → 3 ≤ [0, 1, 2, 0, 1, 2, 0, 1, 2].count i) →
      ∀ pc ∈ (Conc.run "a.txt"
        { pcs := List.replicate 3 .start, repo := exRepo, world := exWorld }
        [0, 1, 2, 0, 1, 2, 0, 1, 2]).pcs, pc.isDone = true) :=
  ⟨by decide, rfl,
    concurrent_Hash exRepo exWorld "a.txt" [1] (by decide) rfl 3 (by decide)
      [0, 1, 2, 0, 1, 2, 0, 1, 2]⟩

/-- C19, as stated, fails twice.  After `Save("a.txt", [5])` and `Save("./a.txt", [6])`
on the freshly scanned example directory the key `a.txt` has the nonzero value `5`
while its file holds `[6]`, of hash `6`.  After `Save("s.txt", [5])` on the freshly
scanned directory with the write-only `s.txt` the key `s.txt` has the nonzero value `5`
while its file cannot be read. -/
theorem cache_coherence_counterexample :
    New 2 exWorld "/root" true none (some sumHash) = .ok (exScanned, exScannedWorld) ∧
    mapGet (run [Op.Save "a.txt" [5], Op.Save "./a.txt" [6]] exScanned
      exScannedWorld).1.hashValue "a.txt" = some 5 ∧
    (run [Op.Save "a.txt" [5], Op.Save "./a.txt" [6]] exScanned
      exScannedWorld).2.fs.readFile (Join "/root" "a.txt") = .ok [6] ∧
    sumHash [6] ≠ 5 ∧
    New 2 { fs := exLockedFS, calls := [] } "/root" true none (some sumHash)
      = .ok (exLocked, exLockedWorld) ∧
    mapGet (run [Op.Save "s.txt" [5]] exLocked exLockedWorld).1.hashValue "s.txt"
      = some 5 ∧
    (run [Op.Save "s.txt" [5]] exLocked exLockedWorld).2.fs.readFile (Join "/root" "s.txt")
      = .error .EACCES :=
  ⟨rfl, by decide, rfl, by decide, rfl, by decide, rfl⟩

/-- C19, amended. Start from the repository `New` returned and make any sequence of
`Hash`, `Read` and `Save` calls, with arbitrary paths and nothing else touching the
filesystem, in which no `Save(p, _)` is made while another key with a nonzero cached
value addresses the same file as `p`.  Then in the state reached every key `k` with a
nonzero cached value `v` addresses, through `Join(location, k)`, a regular file whose
content has hash `v`. -/
theorem cache_coherence (fuel : Nat) (w : World) (location : String) (recursive : Bool)
    (extensions : Option (List String)) (hashFunc : Bytes → Nat) (r0 : Repo) (w0 : World)
    (hnew : New fuel w location recursive extensions (some hashFunc) = .ok (r0, w0))
    (ops : List Op) (hfree : aliasFreeRun ops r0 w0) :
    ∀ k v, mapGet (run ops r0 w0).1.hashValue k = some v → v ≠ 0 →
      ∃ d rd wr, (run ops r0 w0).2.fs.lookup (Join location k) = .ok (Node.file d rd wr) ∧
        v = hashFunc d := by
  obtain ⟨hz, hloc, hfun⟩ :=
    New_zero fuel w location recursive extensions hashFunc r0 w0 hnew
  have hc := run_coherent ops r0 w0 (Coherent_of_zero r0 w0 hz) hfree
  obtain ⟨g1, g2⟩ := run_location ops r0 w0
  intro k v hk hv
  obtain ⟨d, rd, wr, hl, hval⟩ := hc k v hk hv
  rw [g1, hloc] at hl
  rw [g2, hfun] at hval
  exact ⟨d, rd, wr, hl, hval⟩

/-- Witness of the amended C19: on the scanned example directory, save `a.txt`, hash
it, read `b.json`. -/
theorem cache_coherence_witness :
    New 2 exWorld "/root" true none (some sumHash) = .ok (exScanned, exScannedWorld) ∧
    aliasFreeRun [Op.Save "a.txt" [5], Op.Hash "a.txt", Op.Read "b.json"] exScanned
      exScannedWorld ∧
    ∀ k v, mapGet (run [Op.Save "a.txt" [5], Op.Hash "a.txt", Op.Read "b.json"] exScanned
        exScannedWorld).1.hashValue k = some v → v ≠ 0 →
      ∃ d rd wr, (run [Op.Save "a.txt" [5], Op.Hash "a.txt", Op.Read "b.json"] exScanned
          exScannedWorld).2.fs.lookup (Join "/root" k) = .ok (Node.file d rd wr) ∧
        v = sumHash d :=
  ⟨rfl,
    ⟨fun k v _ hk hv =>
        absurd ((New_zero 2 exWorld "/root" true none sumHash exScanned exScannedWorld
          rfl).1 k v hk) hv,
      trivial, trivial, trivial⟩,
    cache_coherence 2 exWorld "/root" true none sumHash exScanned exScannedWorld rfl
      [Op.Save "a.txt" [5], Op.Hash "a.txt", Op.Read "b.json"]
      ⟨fun k v _ hk hv =>
          absurd ((New_zero 2 exWorld "/root" true none sumHash exScanned exScannedWorld
            rfl).1 k v hk) hv,
        trivial, trivial, trivial⟩⟩

/-! ## Trees of entries -/

theorem Disk.disk_resolve_Join (d : Disk) (loc : String) (pos0 : List String)
    (hloc : d.resolve loc = some pos0) (names : List String)
    (hnames : ∀ n ∈ names, validName n = true) :
    d.resolve (Join loc (joinSlash names)) = some (pos0 ++ names) :=
  FS.resolve_Join { root := Node.dir [], cwd := d.cwd } loc pos0 hloc names hnames

theorem Entry.disk_walk_append (n m : Entry) (a b : List String)
    (h : Entry.walk n a = .ok m) : Entry.walk n (a ++ b) = Entry.walk m b := by
  induction a generalizing n with
  | nil =>
    simp only [Entry.walk] at h
    injection h with h
    simp [h]
  | cons c cs ih =>
    cases n with
    | directory es l =>
      simp only [Entry.walk, List.cons_append] at h ⊢
      cases hg : mapGet es c with
      | none => simp [hg] at h
      | some child =>
        simp only [hg] at h ⊢
        exact ih child h
    | regular d rd wr => simp [Entry.walk] at h
    | symlink t => simp [Entry.walk] at h
    | special => simp [Entry.walk] at h

theorem Entry.walk_of_not_isDir (e : Entry) (c : String) (cs : List String)
    (h : e.isDir = false) : Entry.walk e (c :: cs) = .error .ENOTDIR := by
  cases e with
  | directory es l => simp [Entry.isDir] at h
  | regular d rd wr => simp [Entry.walk]
  | symlink t => simp [Entry.walk]
  | special => simp [Entry.walk]

theorem Entry.disk_wfs_iff (es : List (String × Entry)) :
    Entry.wf.wfs es = true ↔ ∀ e ∈ es, validName e.1 = true ∧ e.2.wf = true := by
  induction es with
  | nil => simp [Entry.wf.wfs]
  | cons e rest ih =>
    obtain ⟨n, c⟩ := e
    simp [Entry.wf.wfs, ih, and_assoc]

theorem Entry.disk_wf_dir (es : List (String × Entry)) (l : Bool)
    (h : (Entry.directory es l).wf = true) :
    (mapKeys es).Nodup ∧ ∀ e ∈ es, validName e.1 = true ∧ e.2.wf = true := by
  simp only [Entry.wf, Bool.and_eq_true, decide_eq_true_eq] at h
  exact ⟨h.1, (Entry.disk_wfs_iff es).1 h.2⟩

theorem Entry.alls_iff (es : List (String × Entry)) :
    Entry.listable.alls es = true ↔ ∀ e ∈ es, e.2.listable = true := by
  induction es with
  | nil => simp [Entry.listable.alls]
  | cons e rest ih =>
    obtain ⟨n, c⟩ := e
    simp [Entry.listable.alls, ih]

theorem Entry.listable_dir (es : List (String × Entry)) (l : Bool)
    (h : (Entry.directory es l).listable = true) :
    l = true ∧ ∀ e ∈ es, e.2.listable = true := by
  simp only [Entry.listable, Bool.and_eq_true] at h
  exact ⟨h.1, (Entry.alls_iff es).1 h.2⟩

theorem Entry.disk_height_le_heights (es : List (String × Entry)) :
    ∀ e ∈ es, e.2.height ≤ Entry.height.heights es := by
  induction es with
  | nil => simp
  | cons e rest ih =>
    obtain ⟨n, c⟩ := e
    intro e2 he2
    simp only [List.mem_cons] at he2
    simp only [Entry.height.heights]
    rcases he2 with he2 | he2
    · subst he2
      exact le_max_left _ _
    · exact le_trans (ih e2 he2) (le_max_right _ _)

theorem Entry.disk_walk_valid (path : List String) (es : List (String × Entry)) (l : Bool)
    (m : Entry) (hwf : (Entry.directory es l).wf = true)
    (h : Entry.walk (.directory es l) path = .ok m) :
    ∀ n ∈ path, validName n = true := by
  induction path generalizing es l with
  | nil => simp
  | cons c cs ih =>
    simp only [Entry.walk] at h
    cases hg : mapGet es c with
    | none => simp [hg] at h
    | some child =>
      simp only [hg] at h
      have hmem := mem_of_mapGet es c child hg
      obtain ⟨hv, hcw⟩ := (Entry.disk_wf_dir es l hwf).2 _ hmem
      intro n hn
      simp only [List.mem_cons] at hn
      rcases hn with hn | hn
      · rw [hn]; exact hv
      · cases child with
        | directory es2 l2 => exact ih es2 l2 hcw h n hn
        | regular d rd wr =>
          cases cs with
          | nil => simp at hn
          | cons c2 cs2 => simp [Entry.walk] at h
        | symlink t =>
          cases cs with
          | nil => simp at hn
          | cons c2 cs2 => simp [Entry.walk] at h
        | special =>
          cases cs with
          | nil => simp at hn
          | cons c2 cs2 => simp [Entry.walk] at h

/-! ## The scan of a disk -/

theorem DiskKey_nil (recursive : Bool) (extensions : Option (List String))
    (dirs : List String) (sub : List (String × Entry)) (l : Bool) (k : String) :
    ¬ DiskKey recursive extensions dirs sub l [] k := by
  rintro ⟨first, tail, name, hf, _⟩
  simp at hf

theorem DiskKey_cons_other (recursive : Bool) (extensions : Option (List String))
    (dirs : List String) (sub : List (String × Entry)) (l : Bool) (heads : List String)
    (n : String) (c : Entry) (k : String)
    (hget : mapGet sub n = some c) (hc : c.isDir = false) :
    DiskKey recursive extensions dirs sub l (n :: heads) k ↔
      (k = joinSlash (dirs ++ [n]) ∧ extMatched extensions n = true) ∨
        DiskKey recursive extensions dirs sub l heads k := by
  constructor
  · rintro ⟨first, tail, name, hf, hlast, hk, hrec, ⟨e, hwalk, he⟩, hext⟩
    simp only [List.mem_cons] at hf
    rcases hf with hf | hf
    · subst hf
      simp only [Entry.walk, hget] at hwalk
      cases tail with
      | nil =>
        simp only [List.getLast?_singleton, Option.some.injEq] at hlast
        subst hlast
        exact Or.inl ⟨hk, hext⟩
      | cons t ts =>
        rw [Entry.walk_of_not_isDir c t ts hc] at hwalk
        cases hwalk
    · exact Or.inr ⟨first, tail, name, hf, hlast, hk, hrec, ⟨e, hwalk, he⟩, hext⟩
  · rintro (⟨hk, hext⟩ | ⟨first, tail, name, hf, hrest⟩)
    · exact ⟨n, [], n, by simp, by simp, hk, fun _ => rfl,
        ⟨c, by simp [Entry.walk, hget], hc⟩, hext⟩
    · exact ⟨first, tail, name, by simp [hf], hrest⟩

theorem DiskKey_cons_dir_rec (extensions : Option (List String))
    (dirs : List String) (sub sub2 : List (String × Entry)) (l l2 : Bool)
    (heads : List String) (n : String) (k : String)
    (hget : mapGet sub n = some (Entry.directory sub2 l2)) :
    DiskKey true extensions dirs sub l (n :: heads) k ↔
      DiskKey true extensions (dirs ++ [n]) sub2 l2 (mapKeys sub2) k ∨
        DiskKey true extensions dirs sub l heads k := by
  constructor
  · rintro ⟨first, tail, name, hf, hlast, hk, hrec, ⟨e, hwalk, he⟩, hext⟩
    simp only [List.mem_cons] at hf
    rcases hf with hf | hf
    · subst hf
      simp only [Entry.walk, hget] at hwalk
      cases tail with
      | nil =>
        simp only [Entry.walk] at hwalk
        injection hwalk with hwalk
        rw [← hwalk] at he
        simp [Entry.isDir] at he
      | cons t ts =>
        left
        refine ⟨t, ts, name, ?_, ?_, ?_, (fun h => Bool.noConfusion h), ⟨e, hwalk, he⟩,
          hext⟩
        · rw [mem_mapKeys_iff]
          simp only [Entry.walk] at hwalk
          cases hg : mapGet sub2 t with
          | none => simp [hg] at hwalk
          | some c => rfl
        · simpa [List.getLast?_cons_cons] using hlast
        · simpa using hk
    · exact Or.inr ⟨first, tail, name, hf, hlast, hk, hrec, ⟨e, hwalk, he⟩, hext⟩
  · rintro (⟨first, tail, name, hf, hlast, hk, hrec, ⟨e, hwalk, he⟩, hext⟩ |
      ⟨first, tail, name, hf, hrest⟩)
    · refine ⟨n, first :: tail, name, by simp, ?_, ?_, (fun h => Bool.noConfusion h),
        ⟨e, ?_, he⟩, hext⟩
      · simpa [List.getLast?_cons_cons] using hlast
      · simpa using hk
      · simpa [Entry.walk, hget] using hwalk
    · exact ⟨first, tail, name, by simp [hf], hrest⟩

theorem DiskKey_cons_dir_flat (extensions : Option (List String))
    (dirs : List String) (sub sub2 : List (String × Entry)) (l l2 : Bool)
    (heads : List String) (n : String) (k : String)
    (hget : mapGet sub n = some (Entry.directory sub2 l2)) :
    DiskKey false extensions dirs sub l (n :: heads) k ↔
      DiskKey false extensions dirs sub l heads k := by
  constructor
  · rintro ⟨first, tail, name, hf, hlast, hk, hrec, ⟨e, hwalk, he⟩, hext⟩
    simp only [List.mem_cons] at hf
    rcases hf with hf | hf
    · subst hf
      rw [hrec rfl] at hwalk
      simp only [Entry.walk, hget] at hwalk
      injection hwalk with hwalk
      rw [← hwalk] at he
      simp [Entry.isDir] at he
    · exact ⟨first, tail, name, hf, hlast, hk, hrec, ⟨e, hwalk, he⟩, hext⟩
  · rintro ⟨first, tail, name, hf, hrest⟩
    exact ⟨first, tail, name, by simp [hf], hrest⟩

theorem scanFiles_disk_spec (d : Disk) (loc : String) (recursive : Bool)
    (extensions : Option (List String))
    (self : Repo → DiskWorld → String → Except Fault (Repo × DiskWorld))
    (dirs : List String) (sub : List (String × Entry)) (l : Bool)
    (hdirs : ∀ x ∈ dirs, validName x = true) (hwf : (Entry.directory sub l).wf = true)
    (hself : ∀ n sub2 l2 r w, (n, Entry.directory sub2 l2) ∈ sub → recursive = true →
      r.location = loc → w.disk = d →
      ∃ r2 w2, self r w (joinSlash (dirs ++ [n])) = .ok (r2, w2) ∧ w2.disk = d ∧
        ScanResult (DiskKey recursive extensions (dirs ++ [n]) sub2 l2 (mapKeys sub2)) r r2)
    (es : List (String × Entry)) (hes : ∀ e ∈ es, e ∈ sub) (r : Repo) (w : DiskWorld)
    (hr : r.location = loc) (hw : w.disk = d) :
    ∃ r2 w2, scanFiles self (joinSlash dirs) recursive extensions (es.map Entry.info) r w
        = .ok (r2, w2) ∧ w2.disk = d ∧
      ScanResult (DiskKey recursive extensions dirs sub l (mapKeys es)) r r2 := by
  induction es generalizing r w with
  | nil =>
    exact ⟨r, w, rfl, hw, ScanResult.same _ r (fun k => DiskKey_nil _ _ _ _ _ k)⟩
  | cons e rest ih =>
    obtain ⟨n, c⟩ := e
    have hmem : (n, c) ∈ sub := hes _ (by simp)
    have hget : mapGet sub n = some c :=
      mapGet_of_mem sub n c (Entry.disk_wf_dir sub l hwf).1 hmem
    have hrest : ∀ e ∈ rest, e ∈ sub := fun e he => hes e (by simp [he])
    simp only [List.map_cons, scanFiles, Entry.info, scanName_eq dirs n hdirs]
    cases hc : c.isDir with
    | false =>
      simp only [Bool.false_eq_true, if_false]
      by_cases hm : extMatched extensions n = true
      · simp only [hm, if_true]
        obtain ⟨r2, w2, h1, h2, h3⟩ :=
          ih hrest { r with hashValue := mapSet r.hashValue (joinSlash (dirs ++ [n])) 0 } w hr hw
        refine ⟨r2, w2, h1, h2, ?_⟩
        refine ScanResult.chain _ _ _ r _ r2 (ScanResult.register r _) h3 (fun k => ?_)
        simp only [mapKeys, List.map_cons]
        rw [DiskKey_cons_other recursive extensions dirs sub l _ n c k hget hc]
        simp [hm, mapKeys]
      · simp only [hm, if_false]
        obtain ⟨r2, w2, h1, h2, h3⟩ := ih hrest r w hr hw
        refine ⟨r2, w2, h1, h2, ?_⟩
        refine ScanResult.chain _ _ _ r r r2 (ScanResult.same (fun _ => False) r (by simp)) h3
          (fun k => ?_)
        simp only [mapKeys, List.map_cons]
        rw [DiskKey_cons_other recursive extensions dirs sub l _ n c k hget hc]
        simp [hm, mapKeys]
    | true =>
      cases c with
      | regular d0 rd wr => simp [Entry.isDir] at hc
      | symlink t => simp [Entry.isDir] at hc
      | special => simp [Entry.isDir] at hc
      | directory sub2 l2 =>
        simp only [if_true]
        cases recursive with
        | true =>
          simp only [if_true]
          obtain ⟨r1, w1, g1, g2, g3⟩ := hself n sub2 l2 r w hmem rfl hr hw
          simp only [g1]
          obtain ⟨r2, w2, h1, h2, h3⟩ := ih hrest r1 w1 (g3.1.trans hr) g2
          refine ⟨r2, w2, h1, h2, ?_⟩
          refine ScanResult.chain _ _ _ r r1 r2 g3 h3 (fun k => ?_)
          simp only [mapKeys, List.map_cons]
          rw [DiskKey_cons_dir_rec extensions dirs sub sub2 l l2 _ n k hget]
          simp [mapKeys]
        | false =>
          simp only [Bool.false_eq_true, if_false]
          obtain ⟨r2, w2, h1, h2, h3⟩ := ih hrest r w hr hw
          refine ⟨r2, w2, h1, h2, ?_⟩
          refine ScanResult.chain _ _ _ r r r2 (ScanResult.same (fun _ => False) r (by simp))
            h3 (fun k => ?_)
          simp only [mapKeys, List.map_cons]
          rw [DiskKey_cons_dir_flat extensions dirs sub sub2 l l2 _ n k hget]
          simp [mapKeys]

theorem scan_disk_spec (d : Disk) (loc : String) (pos0 : List String) (recursive : Bool)
    (extensions : Option (List String)) (hloc : d.resolve loc = some pos0) (fuel : Nat) :
    ∀ (dirs : List String) (sub : List (String × Entry)) (l : Bool) (r : Repo)
      (w : DiskWorld),
      r.location = loc → w.disk = d → (∀ x ∈ dirs, validName x = true) →
      d.root.walk (pos0 ++ dirs) = .ok (Entry.directory sub l) →
      (Entry.directory sub l).wf = true → (Entry.directory sub l).height ≤ fuel →
      l = true → (recursive = true → (Entry.directory sub l).listable = true) →
      ∃ r2 w2, OnDisk.scan fuel r w (joinSlash dirs) recursive extensions = .ok (r2, w2) ∧
        w2.disk = d ∧
        ScanResult (DiskKey recursive extensions dirs sub l (mapKeys sub)) r r2 := by
  induction fuel with
  | zero =>
    intro dirs sub l r w _ _ _ _ _ hh
    simp [Entry.height] at hh
  | succ fuel ih =>
    intro dirs sub l r w hr hw hdirs hwalk hwf hh hl hlist
    subst hl
    have hres : w.disk.readDir (Join r.location (joinSlash dirs))
        = .ok (sub.map Entry.info) := by
      rw [hr, hw]
      simp [Disk.readDir, Disk.lookup, Disk.disk_resolve_Join d loc pos0 hloc dirs hdirs, hwalk]
    simp only [OnDisk.scan, DiskWorld.ReadDir, hres]
    refine scanFiles_disk_spec d loc recursive extensions _ dirs sub true hdirs hwf ?_ sub
      (fun e he => he) r _ hr hw
    intro n sub2 l2 r1 w1 hmem hrec hr1 hw1
    have hget : mapGet sub n = some (Entry.directory sub2 l2) :=
      mapGet_of_mem sub n _ (Entry.disk_wf_dir sub true hwf).1 hmem
    obtain ⟨hv, hcw⟩ := (Entry.disk_wf_dir sub true hwf).2 _ hmem
    have hsub := (Entry.listable_dir sub true (hlist hrec)).2 _ hmem
    refine ih (dirs ++ [n]) sub2 l2 r1 w1 hr1 hw1 ?_ ?_ hcw ?_
      (Entry.listable_dir sub2 l2 hsub).1 (fun _ => hsub)
    · intro x hx
      simp only [List.mem_append, List.mem_singleton] at hx
      rcases hx with hx | hx
      · exact hdirs x hx
      · rw [hx]; exact hv
    · rw [← List.append_assoc, Entry.disk_walk_append _ _ _ _ hwalk]
      simp [Entry.walk, hget]
    · have h1 := Entry.disk_height_le_heights sub _ hmem
      simp only [Entry.height] at hh h1 ⊢
      omega

theorem Entry.exists_not_listable (es : List (String × Entry))
    (h : Entry.listable.alls es = false) : ∃ e ∈ es, e.2.listable = false := by
  by_contra hcon
  have hall : ∀ e ∈ es, e.2.listable = true := by
    intro e he
    cases hl : e.2.listable with
    | true => rfl
    | false => exact absurd ⟨e, he, hl⟩ hcon
  rw [(Entry.alls_iff es).2 hall] at h
  cases h

theorem scanFiles_disk_fails (d : Disk) (loc : String)
    (extensions : Option (List String))
    (self : Repo → DiskWorld → String → Except Fault (Repo × DiskWorld))
    (dirs : List String) (sub : List (String × Entry))
    (hdirs : ∀ x ∈ dirs, validName x = true)
    (hok : ∀ n sub2 l2 r w, (n, Entry.directory sub2 l2) ∈ sub →
      (Entry.directory sub2 l2).listable = true → r.location = loc → w.disk = d →
      ∃ r2 w2, self r w (joinSlash (dirs ++ [n])) = .ok (r2, w2) ∧ w2.disk = d ∧
        r2.location = loc)
    (hfail : ∀ n sub2 l2 r w, (n, Entry.directory sub2 l2) ∈ sub →
      (Entry.directory sub2 l2).listable = false → r.location = loc → w.disk = d →
      self r w (joinSlash (dirs ++ [n])) = .error (.os .EACCES))
    (es : List (String × Entry)) (hes : ∀ e ∈ es, e ∈ sub)
    (hbad : ∃ e ∈ es, e.2.listable = false) (r : Repo) (w : DiskWorld)
    (hr : r.location = loc) (hw : w.disk = d) :
    scanFiles self (joinSlash dirs) true extensions (es.map Entry.info) r w
      = .error (.os .EACCES) := by
  induction es generalizing r w with
  | nil =>
    obtain ⟨e, he, _⟩ := hbad
    simp at he
  | cons e rest ih =>
    obtain ⟨n, c⟩ := e
    have hmem : (n, c) ∈ sub := hes _ (by simp)
    have hrest : ∀ e ∈ rest, e ∈ sub := fun e he => hes e (by simp [he])
    simp only [List.map_cons, scanFiles, Entry.info, scanName_eq dirs n hdirs]
    have hbadRest : c.listable = true → ∃ e ∈ rest, e.2.listable = false := by
      intro hc
      obtain ⟨e, he, hl⟩ := hbad
      simp only [List.mem_cons] at he
      rcases he with he | he
      · rw [he] at hl
        simp only at hl
        rw [hc] at hl
        cases hl
      · exact ⟨e, he, hl⟩
    cases c with
    | regular d0 rd wr =>
      simp only [Entry.isDir, Bool.false_eq_true, if_false]
      split
      · exact ih hrest (hbadRest rfl) _ w hr hw
      · exact ih hrest (hbadRest rfl) r w hr hw
    | symlink t =>
      simp only [Entry.isDir, Bool.false_eq_true, if_false]
      split
      · exact ih hrest (hbadRest rfl) _ w hr hw
      · exact ih hrest (hbadRest rfl) r w hr hw
    | special =>
      simp only [Entry.isDir, Bool.false_eq_true, if_false]
      split
      · exact ih hrest (hbadRest rfl) _ w hr hw
      · exact ih hrest (hbadRest rfl) r w hr hw
    | directory sub2 l2 =>
      simp only [Entry.isDir, if_true]
      cases hc : (Entry.directory sub2 l2).listable with
      | false =>
        rw [hfail n sub2 l2 r w hmem hc hr hw]
      | true =>
        obtain ⟨r1, w1, g1, g2, g3⟩ := hok n sub2 l2 r w hmem hc hr hw
        simp only [g1]
        exact ih hrest (hbadRest hc) r1 w1 g3 g2

theorem scan_disk_fails (d : Disk) (loc : String) (pos0 : List String)
    (extensions : Option (List String)) (hloc : d.resolve loc = some pos0) (fuel : Nat) :
    ∀ (dirs : List String) (sub : List (String × Entry)) (l : Bool) (recursive : Bool)
      (r : Repo) (w : DiskWorld),
      r.location = loc → w.disk = d → (∀ x ∈ dirs, validName x = true) →
      d.root.walk (pos0 ++ dirs) = .ok (Entry.directory sub l) →
      (Entry.directory sub l).wf = true → (Entry.directory sub l).height ≤ fuel →
      (l = false ∨ (recursive = true ∧ (Entry.directory sub l).listable = false)) →
      OnDisk.scan fuel r w (joinSlash dirs) recursive extensions
        = .error (.os .EACCES) := by
  induction fuel with
  | zero =>
    intro dirs sub l recursive r w _ _ _ _ _ hh
    simp [Entry.height] at hh
  | succ fuel ih =>
    intro dirs sub l recursive r w hr hw hdirs hwalk hwf hh hbad
    have hlook : w.disk.lookup (Join r.location (joinSlash dirs))
        = .ok (Entry.directory sub l) := by
      rw [hr, hw]
      simp [Disk.lookup, Disk.disk_resolve_Join d loc pos0 hloc dirs hdirs, hwalk]
    cases l with
    | false => simp [OnDisk.scan, DiskWorld.ReadDir, Disk.readDir, hlook]
    | true =>
      rcases hbad with hbad | ⟨hrec, hnl⟩
      · cases hbad
      · subst hrec
        have halls : Entry.listable.alls sub = false := by
          simpa [Entry.listable] using hnl
        simp only [OnDisk.scan, DiskWorld.ReadDir, Disk.readDir, hlook, if_true]
        have hchild : ∀ n sub2 l2, (n, Entry.directory sub2 l2) ∈ sub →
            (∀ x ∈ dirs ++ [n], validName x = true) ∧
            d.root.walk (pos0 ++ (dirs ++ [n])) = .ok (Entry.directory sub2 l2) ∧
            (Entry.directory sub2 l2).wf = true ∧
            (Entry.directory sub2 l2).height ≤ fuel := by
          intro n sub2 l2 hmem
          have hget : mapGet sub n = some (Entry.directory sub2 l2) :=
            mapGet_of_mem sub n _ (Entry.disk_wf_dir sub true hwf).1 hmem
          obtain ⟨hv, hcw⟩ := (Entry.disk_wf_dir sub true hwf).2 _ hmem
          refine ⟨?_, ?_, hcw, ?_⟩
          · intro x hx
            simp only [List.mem_append, List.mem_singleton] at hx
            rcases hx with hx | hx
            · exact hdirs x hx
            · rw [hx]; exact hv
          · rw [← List.append_assoc, Entry.disk_walk_append _ _ _ _ hwalk]
            simp [Entry.walk, hget]
          · have h1 := Entry.disk_height_le_heights sub _ hmem
            simp only [Entry.height] at hh h1 ⊢
            omega
        refine scanFiles_disk_fails d loc extensions _ dirs sub hdirs ?_ ?_ sub
          (fun e he => he) (Entry.exists_not_listable sub halls) r _ hr hw
        · intro n sub2 l2 r1 w1 hmem hl hr1 hw1
          obtain ⟨c1, c2, c3, c4⟩ := hchild n sub2 l2 hmem
          obtain ⟨r2, w2, g1, g2, g3⟩ :=
            scan_disk_spec d loc pos0 true extensions hloc fuel (dirs ++ [n]) sub2 l2 r1 w1
              hr1 hw1 c1 c2 c3 c4 (Entry.listable_dir sub2 l2 hl).1 (fun _ => hl)
          exact ⟨r2, w2, g1, g2, g3.1.trans hr1⟩
        · intro n sub2 l2 r1 w1 hmem hl hr1 hw1
          obtain ⟨c1, c2, c3, c4⟩ := hchild n sub2 l2 hmem
          refine ih (dirs ++ [n]) sub2 l2 true r1 w1 hr1 hw1 c1 c2 c3 c4 ?_
          cases l2 with
          | false => exact Or.inl rfl
          | true => exact Or.inr ⟨rfl, hl⟩

theorem DiskKey_root_iff (recursive : Bool) (extensions : Option (List String))
    (es : List (String × Entry)) (l : Bool) (k : String) :
    DiskKey recursive extensions [] es l (mapKeys es) k ↔
      ∃ path name, path.getLast? = some name ∧ k = joinSlash path ∧
        (recursive = false → path.length = 1) ∧
        (∃ e, Entry.walk (.directory es l) path = .ok e ∧ e.isDir = false) ∧
        (∀ exts, extensions = some exts → Ext name ∈ exts) := by
  constructor
  · rintro ⟨first, tail, name, _, hlast, hk, hrec, hwalk, hext⟩
    exact ⟨first :: tail, name, hlast, by simpa using hk,
      fun h => by simp [hrec h], hwalk, (extMatched_iff _ _).1 hext⟩
  · rintro ⟨path, name, hlast, hk, hrec, ⟨e, hwalk, he⟩, hext⟩
    cases path with
    | nil => simp at hlast
    | cons first tail =>
      refine ⟨first, tail, name, ?_, hlast, by simpa using hk, ?_, ⟨e, hwalk, he⟩,
        (extMatched_iff _ _).2 hext⟩
      · rw [mem_mapKeys_iff]
        simp only [Entry.walk] at hwalk
        cases hg : mapGet es first with
        | none => simp [hg] at hwalk
        | some c => rfl
      · intro h
        simpa using hrec h

/-- C5, as stated, fails twice.  In the directory with a regular file, a symbolic link
to a directory, a dangling symbolic link and a FIFO, all named `*.txt`, the scan
registers all of them, not only the regular file.  In the directory whose subdirectory
`sub` may not be listed, the recursive `New` panics and produces no index. -/
theorem New_scan_counterexample :
    indexOf (OnDisk.New 2 exMixedDisk "/root" true (some [".txt"]) (some sumHash))
      = some [("a.txt", 0), ("ld.txt", 0), ("gone.txt", 0), ("pipe.txt", 0),
          ("sub/d.txt", 0)] ∧
    (∃ e, exMixedDisk.disk.lookup (Join "/root" "ld.txt") = .ok e ∧
      e.isRegular = false) ∧
    (∃ e, exMixedDisk.disk.lookup (Join "/root" "pipe.txt") = .ok e ∧
      e.isRegular = false) ∧
    OnDisk.New 2 exClosedDisk "/root" true none (some sumHash) = .error (.os .EACCES) :=
  ⟨by decide, ⟨_, rfl, rfl⟩, ⟨_, rfl, rfl⟩, rfl⟩

/-- C5, amended. On a well-formed directory tree at `location` in which every directory
the scan has to list may be listed (the root; every directory when `recursive`), `New`
returns a repository whose keys are exactly the `/`-joined relative paths of the entries
that are not directories (regular files, symbolic links and special files alike), of
the first level only unless `recursive`, whose `filepath.Ext` is an element of
`extensions` (no condition when `extensions` is nil); every key maps to `0`; no
directory is a key.  When a directory the scan has to list may not be listed, `New`
panics with the error of `ReadDir`.  On the tree with the regular files `a.txt`,
`b.json`, `c.txt` and `sub/d.txt`: non-recursive with `[".txt"]` gives `a.txt`, `c.txt`;
recursive with `[".txt"]` adds `sub/d.txt`; recursive without filter gives all four. -/
theorem New_scan_entries :
    (∀ (fuel : Nat) (w : DiskWorld) (location : String) (recursive : Bool)
      (extensions : Option (List String)) (hashFunc : Bytes → Nat)
      (es : List (String × Entry)),
      w.disk.lookup location = .ok (Entry.directory es true) →
      (Entry.directory es true).wf = true →
      (recursive = true → (Entry.directory es true).listable = true) →
      (Entry.directory es true).height ≤ fuel →
      ∃ r w2, OnDisk.New fuel w location recursive extensions (some hashFunc)
          = .ok (r, w2) ∧
        (∀ k, k ∈ mapKeys r.hashValue ↔
          ∃ path name, path.getLast? = some name ∧ k = joinSlash path ∧
            (recursive = false → path.length = 1) ∧
            (∃ e, Entry.walk (.directory es true) path = .ok e ∧ e.isDir = false) ∧
            (∀ exts, extensions = some exts → Ext name ∈ exts)) ∧
        (∀ k ∈ mapKeys r.hashValue, mapGet r.hashValue k = some 0) ∧
        (∀ path e, Entry.walk (.directory es true) path = .ok e → e.isDir = true →
          joinSlash path ∉ mapKeys r.hashValue)) ∧
    (∀ (fuel : Nat) (w : DiskWorld) (location : String) (recursive : Bool)
      (extensions : Option (List String)) (hashFunc : Bytes → Nat)
      (es : List (String × Entry)) (l : Bool),
      w.disk.lookup location = .ok (Entry.directory es l) →
      (Entry.directory es l).wf = true →
      (l = false ∨ (recursive = true ∧ (Entry.directory es l).listable = false)) →
      (Entry.directory es l).height ≤ fuel →
      OnDisk.New fuel w location recursive extensions (some hashFunc)
        = .error (.os .EACCES)) ∧
    indexOf (OnDisk.New 2 exDisk "/root" false (some [".txt"]) (some sumHash))
      = some [("a.txt", 0), ("c.txt", 0)] ∧
    indexOf (OnDisk.New 2 exDisk "/root" true (some [".txt"]) (some sumHash))
      = some [("a.txt", 0), ("c.txt", 0), ("sub/d.txt", 0)] ∧
    indexOf (OnDisk.New 2 exDisk "/root" true none (some sumHash))
      = some [("a.txt", 0), ("b.json", 0), ("c.txt", 0), ("sub/d.txt", 0)] := by
  refine ⟨?_, ?_, by decide, by decide, by decide⟩
  · intro fuel w location recursive extensions hashFunc es hroot hwf hlist hfuel
    have hstat : w.disk.stat location = .ok true := by
      simp [Disk.stat, hroot, Entry.isDir]
    cases hres : w.disk.resolve location with
    | none => simp [Disk.lookup, hres] at hroot
    | some pos0 =>
      have hwalk : w.disk.root.walk (pos0 ++ []) = .ok (Entry.directory es true) := by
        simpa [Disk.lookup, hres] using hroot
      obtain ⟨r, w2, h1, _, h3, h4, h5, h6⟩ :=
        scan_disk_spec w.disk location pos0 recursive extensions hres fuel [] es true
          { location := location, hashFunc := hashFunc, hashValue := [] }
          { w with calls := w.calls ++ [Call.Stat location] } rfl rfl (by simp) hwalk hwf
          hfuel rfl hlist
      have hkeys : ∀ k, k ∈ mapKeys r.hashValue ↔
          ∃ path name, path.getLast? = some name ∧ k = joinSlash path ∧
            (recursive = false → path.length = 1) ∧
            (∃ e, Entry.walk (.directory es true) path = .ok e ∧ e.isDir = false) ∧
            (∀ exts, extensions = some exts → Ext name ∈ exts) := by
        intro k
        rw [h5, DiskKey_root_iff]
        simp [mapKeys]
      refine ⟨r, w2, ?_, hkeys, ?_, ?_⟩
      · simp only [OnDisk.New, DiskWorld.Stat, hstat]
        exact h1
      · intro k hk
        rw [mem_mapKeys_iff] at hk
        cases hg : mapGet r.hashValue k with
        | none => simp [hg] at hk
        | some v =>
          have := h6 (by simp [mapGet]) k v hg
          rw [this]
      · intro path e hdir hisdir hmem
        obtain ⟨path2, name, _, hk, _, ⟨e2, hfile, he2⟩, _⟩ := (hkeys _).1 hmem
        have hv1 := Entry.disk_walk_valid path es true _ hwf hdir
        have hv2 := Entry.disk_walk_valid path2 es true _ hwf hfile
        have := joinSlash_injective path path2 hv1 hv2 hk
        rw [this, hfile] at hdir
        injection hdir with hdir
        rw [hdir, hisdir] at he2
        cases he2
  · intro fuel w location recursive extensions hashFunc es l hroot hwf hbad hfuel
    have hstat : w.disk.stat location = .ok true := by
      simp [Disk.stat, hroot, Entry.isDir]
    cases hres : w.disk.resolve location with
    | none => simp [Disk.lookup, hres] at hroot
    | some pos0 =>
      have hwalk : w.disk.root.walk (pos0 ++ []) = .ok (Entry.directory es l) := by
        simpa [Disk.lookup, hres] using hroot
      simp only [OnDisk.New, DiskWorld.Stat, hstat]
      exact scan_disk_fails w.disk location pos0 extensions hres fuel [] es l recursive
        { location := location, hashFunc := hashFunc, hashValue := [] }
        { w with calls := w.calls ++ [Call.Stat location] } rfl rfl (by simp) hwalk hwf
        hfuel hbad

/-- Witness of the amended C5: the mixed directory, scanned recursively for `.txt`, and
the directory with the closed subdirectory, scanned recursively. -/
theorem New_scan_entries_witness :
    exMixedDisk.disk.lookup "/root" = .ok (Entry.directory exMixedEntries true) ∧
    (Entry.directory exMixedEntries true).wf = true ∧
    (Entry.directory exMixedEntries true).listable = true ∧
    (Entry.directory exMixedEntries true).height ≤ 2 ∧
    (∃ r w2, OnDisk.New 2 exMixedDisk "/root" true (some [".txt"]) (some sumHash)
        = .ok (r, w2) ∧
      (∀ k, k ∈ mapKeys r.hashValue ↔
        ∃ path name, path.getLast? = some name ∧ k = joinSlash path ∧
          (true = false → path.length = 1) ∧
          (∃ e, Entry.walk (.directory exMixedEntries true) path = .ok e ∧
            e.isDir = false) ∧
          (∀ exts, some [".txt"] = some exts → Ext name ∈ exts)) ∧
      (∀ k ∈ mapKeys r.hashValue, mapGet r.hashValue k = some 0) ∧
      (∀ path e, Entry.walk (.directory exMixedEntries true) path = .ok e →
        e.isDir = true → joinSlash path ∉ mapKeys r.hashValue)) ∧
    exClosedDisk.disk.lookup "/root" = .ok (Entry.directory exClosedEntries true) ∧
    (Entry.directory exClosedEntries true).listable = false ∧
    OnDisk.New 2 exClosedDisk "/root" true none (some sumHash) = .error (.os .EACCES) :=
  ⟨rfl, by decide, by decide, by decide,
    New_scan_entries.1 2 exMixedDisk "/root" true (some [".txt"]) sumHash exMixedEntries
      rfl (by decide) (fun _ => by decide) (by decide),
    rfl, by decide,
    New_scan_entries.2.1 2 exClosedDisk "/root" true none sumHash exClosedEntries true
      rfl (by decide) (Or.inr ⟨rfl, by decide⟩) (by decide)⟩

/-! ## The trees of nodes are the disks without links, special files and closed
directories -/

theorem mapGet_toEntries (es : List (String × Node)) (c : String) :
    mapGet (Node.toEntry.toEntries es) c = (mapGet es c).map Node.toEntry := by
  induction es with
  | nil => simp [Node.toEntry.toEntries, mapGet]
  | cons e rest ih =>
    obtain ⟨n, x⟩ := e
    by_cases h : n = c
    · simp [Node.toEntry.toEntries, mapGet, h]
    · simp [Node.toEntry.toEntries, mapGet, h, ih]

theorem mapSet_toEntries (es : List (String × Node)) (c : String) (x : Node) :
    Node.toEntry.toEntries (mapSet es c x) = mapSet (Node.toEntry.toEntries es) c x.toEntry := by
  induction es with
  | nil => simp [Node.toEntry.toEntries, mapSet]
  | cons e rest ih =>
    obtain ⟨n, y⟩ := e
    by_cases h : n = c
    · simp [Node.toEntry.toEntries, mapSet, h]
    · simp [Node.toEntry.toEntries, mapSet, h, ih]

theorem info_toEntries (es : List (String × Node)) :
    (Node.toEntry.toEntries es).map Entry.info = es.map toInfo := by
  induction es with
  | nil => simp [Node.toEntry.toEntries]
  | cons e rest ih =>
    obtain ⟨n, x⟩ := e
    cases x <;>
      simp [Node.toEntry.toEntries, Entry.info, toInfo, Node.toEntry, Entry.isDir,
        Node.isDir, ih]

theorem Entry.walk_toEntry (pos : List String) :
    ∀ n : Node, Entry.walk n.toEntry pos =
      match Node.walk n pos with
      | .ok m => .ok m.toEntry
      | .error e => .error e := by
  induction pos with
  | nil =>
    intro n
    simp [Entry.walk, Node.walk]
  | cons c cs ih =>
    intro n
    cases n with
    | file d rd wr => simp [Node.toEntry, Entry.walk, Node.walk]
    | dir es =>
      simp only [Node.toEntry, Entry.walk, Node.walk, mapGet_toEntries]
      cases hg : mapGet es c with
      | none => simp
      | some child =>
        simp only [Option.map_some']
        exact ih child

theorem Entry.mkdirs_toEntry (pos : List String) :
    ∀ n : Node, Entry.mkdirs n.toEntry pos =
      match Node.mkdirs n pos with
      | .ok m => .ok m.toEntry
      | .error e => .error e := by
  induction pos with
  | nil =>
    intro n
    cases n <;> simp [Node.toEntry, Entry.mkdirs, Node.mkdirs]
  | cons c cs ih =>
    intro n
    cases n with
    | file d rd wr => simp [Node.toEntry, Entry.mkdirs, Node.mkdirs]
    | dir es =>
      simp only [Node.toEntry, Entry.mkdirs, Node.mkdirs, mapGet_toEntries]
      cases hg : mapGet es c with
      | none =>
        have h := ih (Node.dir [])
        simp only [Node.toEntry, Node.toEntry.toEntries] at h
        simp only [Option.map_none', h]
        cases Node.mkdirs (Node.dir []) cs with
        | error e => rfl
        | ok m => simp [Node.toEntry, mapSet_toEntries]
      | some child =>
        simp only [Option.map_some', ih child]
        cases Node.mkdirs child cs with
        | error e => rfl
        | ok m => simp [Node.toEntry, mapSet_toEntries]

theorem Disk.lookup_toDisk (fs : FS) (p : String) :
    fs.toDisk.lookup p =
      match fs.lookup p with
      | .ok m => .ok m.toEntry
      | .error e => .error e := by
  simp only [Disk.lookup, FS.lookup, Disk.resolve, FS.resolve, FS.toDisk]
  split
  · rfl
  · exact Entry.walk_toEntry _ _

theorem Disk.readDir_toDisk (fs : FS) (p : String) :
    fs.toDisk.readDir p = fs.readDir p := by
  simp only [Disk.readDir, FS.readDir, Disk.lookup_toDisk]
  cases fs.lookup p with
  | error e => rfl
  | ok n =>
    cases n with
    | file d rd wr => rfl
    | dir es => simp [Node.toEntry, info_toEntries]

theorem Disk.stat_toDisk (fs : FS) (p : String) : fs.toDisk.stat p = fs.stat p := by
  simp only [Disk.stat, FS.stat, Disk.lookup_toDisk]
  cases fs.lookup p with
  | error e => rfl
  | ok n => cases n <;> rfl

theorem Disk.mkdirAll_toDisk (fs : FS) (p : String) :
    fs.toDisk.mkdirAll p =
      match fs.mkdirAll p with
      | .ok fs2 => .ok fs2.toDisk
      | .error e => .error e := by
  simp only [Disk.mkdirAll, FS.mkdirAll, Disk.resolve, FS.resolve, FS.toDisk]
  split
  · rfl
  · simp only [Entry.mkdirs_toEntry]
    cases Node.mkdirs fs.root _ with
    | error e => rfl
    | ok m => rfl

theorem scanFiles_toDisk
    (self : Repo → World → String → Except Fault (Repo × World))
    (self2 : Repo → DiskWorld → String → Except Fault (Repo × DiskWorld))
    (dir : String) (recursive : Bool) (extensions : Option (List String))
    (hself : ∀ r w name, self2 r w.toDisk name = onDisk (self r w name))
    (files : List FileInfo) :
    ∀ (r : Repo) (w : World),
      scanFiles self2 dir recursive extensions files r w.toDisk
        = onDisk (scanFiles self dir recursive extensions files r w) := by
  induction files with
  | nil =>
    intro r w
    rfl
  | cons file rest ih =>
    intro r w
    simp only [scanFiles]
    split
    · split
      · rw [hself]
        cases self r w (if dir ≠ "" then dir ++ "/" ++ file.Name else file.Name) with
        | error f => rfl
        | ok p =>
          obtain ⟨r1, w1⟩ := p
          exact ih r1 w1
      · exact ih r w
    · split
      · exact ih _ w
      · exact ih r w

theorem scan_toDisk (recursive : Bool) (extensions : Option (List String)) (fuel : Nat) :
    ∀ (r : Repo) (w : World) (dir : String),
      OnDisk.scan fuel r w.toDisk dir recursive extensions
        = onDisk (Repo.scan fuel r w dir recursive extensions) := by
  induction fuel with
  | zero =>
    intro r w dir
    rfl
  | succ fuel ih =>
    intro r w dir
    simp only [OnDisk.scan, Repo.scan, DiskWorld.ReadDir, World.ReadDir, World.toDisk,
      Disk.readDir_toDisk]
    cases w.fs.readDir (Join r.location dir) with
    | error e => rfl
    | ok files =>
      exact scanFiles_toDisk _ _ dir recursive extensions (fun r1 w1 name => ih r1 w1 name)
        files r { w with calls := w.calls ++ [Call.ReadDir (Join r.location dir)] }

theorem New_toDisk (fuel : Nat) (w : World) (location : String) (recursive : Bool)
    (extensions : Option (List String)) (hashFunc : Option (Bytes → Nat)) :
    OnDisk.New fuel w.toDisk location recursive extensions hashFunc
      = onDisk (New fuel w location recursive extensions hashFunc) := by
  cases hashFunc with
  | none => rfl
  | some h =>
    simp only [OnDisk.New, New, DiskWorld.Stat, World.Stat, World.toDisk, Disk.stat_toDisk]
    cases hs : w.fs.stat location with
    | ok b =>
      exact scan_toDisk recursive extensions fuel _
        { w with calls := w.calls ++ [Call.Stat location] } ""
    | error e =>
      simp only []
      cases hne : IsNotExist e with
      | false =>
        simp only [Bool.false_eq_true, if_false]
        exact scan_toDisk recursive extensions fuel _
          { w with calls := w.calls ++ [Call.Stat location] } ""
      | true =>
        simp only [if_true, DiskWorld.MkdirAll, World.MkdirAll, Disk.mkdirAll_toDisk]
        cases hm : w.fs.mkdirAll location with
        | error e2 => rfl
        | ok fs2 =>
          exact scan_toDisk recursive extensions fuel _
            { fs := fs2, calls := w.calls ++ [Call.Stat location]
                ++ [Call.MkdirAll location] } ""

end filerepo
